import Mathlib

/-!
Verification of the tabular (CSV) engine and the archive/tree engine of the
Nested-Storage-Platform front end.

The embedding models JavaScript strings as `List Char` (`Str`), JavaScript
numbers as exact rationals (`ℚ`), and each source function from
`src/components/CsvViewer.tsx` and `src/components/utils.ts` as an executable
Lean definition carrying the same name.  Two deliberate approximations, noted
at the definitions concerned: numeric literals are evaluated exactly instead
of as IEEE doubles (the inputs exercised here are exactly representable), and
exotic `Number()` inputs (hex literals, `Infinity`) are treated as
non-numeric.
-/

/-- JavaScript strings, modelled as lists of characters. -/
abbrev Str := List Char

/-- `String.prototype.trim()`: drop whitespace from both ends. -/
def trimList (l : Str) : Str :=
  ((l.dropWhile Char.isWhitespace).reverse.dropWhile Char.isWhitespace).reverse

/-- `String.prototype.toLowerCase()` (ASCII approximation). -/
def lowerList (l : Str) : Str := l.map Char.toLower

/-- `String.prototype.includes(sub)`. -/
def containsSub (l sub : Str) : Bool := l.tails.any (fun t => sub.isPrefixOf t)

/-- JavaScript `<` on strings: lexicographic by code unit. -/
def lexLt : Str → Str → Bool
  | [], [] => false
  | [], _ :: _ => true
  | _ :: _, [] => false
  | a :: as, b :: bs => if a < b then true else if b < a then false else lexLt as bs

/-- `Array.prototype.join(c)` for a one-character separator. -/
def joinChar (c : Char) : List Str → Str
  | [] => []
  | [x] => x
  | x :: y :: xs => x ++ c :: joinChar c (y :: xs)

/-- `String.prototype.split(c)` for a one-character separator. -/
def splitOnCharList (c : Char) : Str → List Str
  | [] => [[]]
  | x :: xs =>
    let r := splitOnCharList c xs
    if x = c then [] :: r else (x :: r.headI) :: r.tail

/-- A cell value of a parsed CSV row: JavaScript `number | string`.  A
`Value.num s` records that the code stored `Number(s)`; the numeric literal
`s` is kept so that the value can be re-serialized textually. -/
inductive Value where
  | num (s : Str)
  | str (s : Str)
deriving DecidableEq

/-- An exact JavaScript number, as an unreduced fraction: numerator and a
positive power-of-ten denominator.  Kept unreduced so that every comparison
is plain integer arithmetic. -/
abbrev Dec := ℤ × ℕ

/-- Exact order on `Dec` by cross-multiplication (denominators are positive
powers of ten by construction). -/
def decLt (a b : Dec) : Bool := decide (a.1 * (b.2 : ℤ) < b.1 * (a.2 : ℤ))

/-- Exact `≤` on `Dec` by cross-multiplication. -/
def decLe (a b : Dec) : Bool := decide (a.1 * (b.2 : ℤ) ≤ b.1 * (a.2 : ℤ))

/-- Digits of a numeral, most significant first, as a natural number. -/
def digitsToNat (l : Str) : ℕ := l.foldl (fun a c => a * 10 + (c.toNat - 48)) 0

/-- An optional leading sign: the sign as a factor and the remainder. -/
def parseSign (s : Str) : ℤ × Str :=
  match s with
  | '+' :: r => (1, r)
  | '-' :: r => (-1, r)
  | r => (1, r)

/-- An optional fractional part: the fraction digits after a leading dot
and the remainder. -/
def splitFrac (s2 : Str) : Str × Str :=
  match s2 with
  | '.' :: r => (r.takeWhile Char.isDigit, r.dropWhile Char.isDigit)
  | r => ([], r)

/-- The unsigned mantissa `digits [. digits]` (at least one digit), as an
exact unreduced fraction plus the unconsumed remainder. -/
def parseMantissa (s1 : Str) : Option (Dec × Str) :=
  let ip := s1.takeWhile Char.isDigit
  let p2 := splitFrac (s1.dropWhile Char.isDigit)
  if ip = [] ∧ p2.1 = [] then none
  else
    some ((((digitsToNat ip * 10 ^ p2.1.length + digitsToNat p2.1 : ℕ) : ℤ),
      10 ^ p2.1.length), p2.2)

/-- An optional exponent sign: the negation flag and the remainder. -/
def splitExpSign (r : Str) : Bool × Str :=
  match r with
  | '+' :: rr => (false, rr)
  | '-' :: rr => (true, rr)
  | rr => (false, rr)

/-- The exponent body `[+-]? digits` following `e`/`E`, consuming the whole
remainder. -/
def parseExp (r : Str) : Option ℤ :=
  let p3 := splitExpSign r
  let ed := p3.2.takeWhile Char.isDigit
  if ed ≠ [] ∧ p3.2.dropWhile Char.isDigit = [] then
    some (if p3.1 then -(digitsToNat ed : ℤ) else (digitsToNat ed : ℤ))
  else none

/-- Scale an exact fraction by a power of ten. -/
def applyExp (m : Dec) (k : ℤ) : Dec :=
  if k < 0 then (m.1, m.2 * 10 ^ (-k).toNat) else (m.1 * 10 ^ k.toNat, m.2)

/-- The decimal-literal fragment of JavaScript numeric conversion: the
combined check `!isNaN(Number(v)) && v !== '' && !isNaN(parseFloat(v))`
from `parseCsvFile`, together with the value it produces.  Accepts
`[+-]? digits [. digits] [eE [+-]? digits]` (with at least one mantissa
digit) and evaluates it exactly; hex/binary/octal literals and `Infinity`
are treated as non-numeric, and IEEE rounding is not modelled. -/
def parseDecimal (s : Str) : Option Dec :=
  let p1 := parseSign s
  match parseMantissa p1.2 with
  | none => none
  | some (m, s3) =>
    match s3 with
    | [] => some (p1.1 * m.1, m.2)
    | e :: r =>
      if e = 'e' ∨ e = 'E' then
        match parseExp r with
        | none => none
        | some k => some (p1.1 * (applyExp m k).1, (applyExp m k).2)
      else none

/-- JavaScript `Number(s)` on a string, as used by the column filters:
whitespace-only input is `0`, otherwise the decimal literal (or `none`,
standing for `NaN`). -/
def jsNumber (s : Str) : Option Dec :=
  let t := trimList s
  if t = [] then some (0, 1) else parseDecimal t

/-- `String(v)` for a stored cell value. -/
def stringOfValue : Value → Str
  | .num s => s
  | .str s => s

/-- JavaScript falsiness of a stored cell value (`0` and `''`). -/
def isFalsyValue : Value → Bool
  | .num s =>
    match parseDecimal s with
    | some d => d.1 == 0
    | none => false
  | .str s => s.isEmpty

/-- A parsed CSV row: a JavaScript object from column name to value, i.e. an
association list with distinct keys in insertion order. -/
abbrev Row := List (Str × Value)

/-- `row[k]` (property read, `undefined` as `none`). -/
def rowGet (row : Row) (k : Str) : Option Value :=
  (row.find? (fun p => p.1 == k)).map (·.2)

/-- `row[k] = v` (property write: overwrite in place or append). -/
def objInsert (row : Row) (k : Str) (v : Value) : Row :=
  if row.any (fun p => p.1 == k) then
    row.map (fun p => if p.1 == k then (k, v) else p)
  else row ++ [(k, v)]

/-- `Object.values(row)`. -/
def rowValues (row : Row) : List Value := row.map (·.2)

/-- `Object.keys(row)`. -/
def rowKeys (row : Row) : List Str := row.map (·.1)

/-- The quoted-field scanner of `parseCsvLine` (CsvViewer.tsx:25): one step
per character, maintaining the in-quotes flag and the current field.  The
four equations are, in order: end of line emits the last field; an escaped
quote (`""` while in quotes) emits a literal quote and consumes two
characters; any other quote toggles the flag; a comma ends a field only
outside quotes, and every other character is accumulated. -/
def parseCsvLineAux : Str → Bool → Str → List Str
  | [], _, current => [trimList current]
  | '"' :: '"' :: rest2, true, current => parseCsvLineAux rest2 true (current ++ ['"'])
  | '"' :: rest, inQuotes, current => parseCsvLineAux rest (!inQuotes) current
  | c :: rest, inQuotes, current =>
    if c = ',' ∧ inQuotes = false then
      trimList current :: parseCsvLineAux rest inQuotes []
    else
      parseCsvLineAux rest inQuotes (current ++ [c])

/-- `parseCsvLine` (CsvViewer.tsx:25): split one line into trimmed fields,
honouring quoting. -/
def parseCsvLine (line : Str) : List Str := parseCsvLineAux line false []

/-- `value.replace(/^"(.*)"$/, '$1')`: strip one layer of surrounding quotes
(`.` does not match a line break, so an inner line break defeats the match). -/
def stripOuterQuotes (s : Str) : Str :=
  match s with
  | '"' :: rest =>
    if rest ≠ [] ∧ rest.getLast? = some '"' ∧ ¬ rest.dropLast.contains '\n' then
      rest.dropLast
    else s
  | _ => s

/-- Field-to-value coercion of `parseCsvFile` (CsvViewer.tsx:82–92): strip
quotes, trim, then attempt numeric conversion. -/
def mkValue (raw : Str) : Value :=
  let v := trimList (stripOuterQuotes raw)
  match parseDecimal v with
  | some _ => .num v
  | none => .str v

/-- Row construction of `parseCsvFile`: one property write per header
position, missing trailing fields coercing to the empty string. -/
def mkRow (headers : List Str) (values : List Str) : Row :=
  headers.enum.foldl (fun row p => objInsert row p.2 (mkValue (values.getD p.1 []))) []

/-- `Object.values(row).some(val => val !== '')`. -/
def rowNonEmpty (row : Row) : Bool :=
  (rowValues row).any (fun v => decide (v ≠ Value.str []))

/-- The data-row loop of `parseCsvFile` (CsvViewer.tsx:77–99). -/
def buildRows (headers : List Str) : List Str → List Row
  | [] => []
  | line :: rest =>
    let row := mkRow headers (parseCsvLine line)
    if rowNonEmpty row then row :: buildRows headers rest
    else buildRows headers rest

/-- `text.split('\n').filter(line => line.trim())`. -/
def nonBlankLines (text : Str) : List Str :=
  (splitOnCharList '\n' text).filter (fun l => !(trimList l).isEmpty)

/-- `parseCsvFile` (CsvViewer.tsx:60): full text to `(rows, columns)`, or the
"CSV file is empty" rejection. -/
def parseCsvFile (text : Str) : Except String (List Row × List Str) :=
  match nonBlankLines text with
  | [] => .error "CSV file is empty"
  | headerLine :: dataLines =>
    let headers := (parseCsvLine headerLine).map (fun h => trimList (stripOuterQuotes h))
    .ok (buildRows headers dataLines, headers)

/-- `value.replace(/"/g, '""')`. -/
def escapeQuotes (s : Str) : Str :=
  s.flatMap (fun c => if c = '"' then ['"', '"'] else [c])

/-- `String(x || '')`: the empty string for `undefined` and for falsy values,
else the textual form. -/
def stringOrEmpty (v : Option Value) : Str :=
  match v with
  | none => []
  | some w => if isFalsyValue w then [] else stringOfValue w

/-- The per-cell serializer of `exportCsvData` (CsvViewer.tsx:119–125):
`String(row[header] || '')`, wrapped in quotes with internal quotes doubled
when it contains a comma, a quote or a line break. -/
def serializeValue (v : Option Value) : Str :=
  let s := stringOrEmpty v
  if s.contains ',' || s.contains '"' || s.contains '\n' then
    '"' :: (escapeQuotes s ++ ['"'])
  else s

/-- `exportCsvData` (CsvViewer.tsx:112): serialize a row set to CSV text
(`none` when the row set is empty and no file is produced); the header line
is the first row's key list joined by commas. -/
def exportCsvData (data : List Row) : Option Str :=
  match data with
  | [] => none
  | first :: _ =>
    let headers := rowKeys first
    some (joinChar '\n'
      (joinChar ',' headers ::
        data.map (fun row => joinChar ',' (headers.map (fun h => serializeValue (rowGet row h))))))

/-- The six column-filter operators of `ColumnFilter` (CsvViewer.tsx:17). -/
inductive FilterOp where
  | contains | equals | startsWith | endsWith | greater | less
deriving DecidableEq

/-- A column-scoped predicate filter (CsvViewer.tsx:14). -/
structure ColumnFilter where
  column : Str
  value : Str
  operator : FilterOp
deriving DecidableEq

/-- `Number(row[col])` for the numeric operators: `undefined` is `NaN`, a
stored number is itself, a string goes through `Number()`. -/
def jsNumberOfCell : Option Value → Option Dec
  | none => none
  | some (.num s) => parseDecimal s
  | some (.str s) => jsNumber s

/-- The filter predicate of the filter/sort effect (CsvViewer.tsx:198–218). -/
def rowMatchesFilter (f : ColumnFilter) (row : Row) : Bool :=
  let cellValue := lowerList (stringOrEmpty (rowGet row f.column))
  let filterValue := lowerList f.value
  match f.operator with
  | .contains => containsSub cellValue filterValue
  | .equals => cellValue == filterValue
  | .startsWith => filterValue.isPrefixOf cellValue
  | .endsWith => filterValue.isSuffixOf cellValue
  | .greater =>
    match jsNumberOfCell (rowGet row f.column), jsNumber filterValue with
    | some a, some b => decLt b a
    | _, _ => false
  | .less =>
    match jsNumberOfCell (rowGet row f.column), jsNumber filterValue with
    | some a, some b => decLt a b
    | _, _ => false

/-- The global-search predicate (CsvViewer.tsx:188–192): some column's value,
stringified and lower-cased, contains the lower-cased term. -/
def rowMatchesSearch (q : Str) (row : Row) : Bool :=
  (rowValues row).any (fun v => containsSub (lowerList (stringOfValue v)) (lowerList q))

/-- Step (2) of the effect: global search, skipped for an empty term. -/
def applyGlobalSearch (q : Str) (l : List Row) : List Row :=
  if q.isEmpty then l else l.filter (rowMatchesSearch q)

/-- Step (3) of the effect: each active (non-empty-valued) column filter
narrows the surviving set in order (CsvViewer.tsx:196–220). -/
def applyColumnFilters (fs : List ColumnFilter) (l : List Row) : List Row :=
  fs.foldl (fun acc f => if f.value.isEmpty then acc else acc.filter (rowMatchesFilter f)) l

/-- Sort direction (CsvViewer.tsx:9). -/
inductive SortDir where
  | asc | desc
deriving DecidableEq

/-- Sort configuration (CsvViewer.tsx:9). -/
structure SortConfig where
  key : Str
  direction : SortDir
deriving DecidableEq

/-- `String(x)` where `x` may be `undefined`. -/
def stringOfUndef : Option Value → Str
  | none => "undefined".data
  | some w => stringOfValue w

/-- `comparator(a, b) ≤ 0` for the sort comparator (CsvViewer.tsx:224–240):
two stored numbers compare numerically (direction-signed difference), any
other pair compares by lower-cased textual form. -/
def sortLe (sc : SortConfig) (a b : Row) : Bool :=
  match rowGet a sc.key, rowGet b sc.key with
  | some (.num sa), some (.num sb) =>
    let qa := (parseDecimal sa).getD (0, 1)
    let qb := (parseDecimal sb).getD (0, 1)
    if sc.direction = .asc then decLe qa qb else decLe qb qa
  | va, vb =>
    let aStr := lowerList (stringOfUndef va)
    let bStr := lowerList (stringOfUndef vb)
    if lexLt aStr bStr then sc.direction = .asc
    else if lexLt bStr aStr then sc.direction = .desc
    else true

/-- Step (4) of the effect: a stable sort by the comparator, modelling the
ECMAScript stable `Array.prototype.sort`. -/
def sortRows (sc : SortConfig) (l : List Row) : List Row :=
  l.insertionSort (fun a b => sortLe sc a b = true)

/-- The whole filter/sort effect (CsvViewer.tsx:183–245): global search, then
column filters, then the optional sort. -/
def computeFiltered (data : List Row) (q : Str) (fs : List ColumnFilter)
    (sc : Option SortConfig) : List Row :=
  let f1 := applyGlobalSearch q data
  let f2 := applyColumnFilters fs f1
  match sc with
  | none => f2
  | some c => sortRows c f2

/-- The component state of `CsvViewer` that the query engine reads and
writes. -/
structure ViewerState where
  data : List Row
  filteredData : List Row
  globalSearchQuery : Str
  columnFilters : List ColumnFilter
  sortConfig : Option SortConfig
  currentPage : ℕ
  itemsPerPage : ℕ

/-- The `useEffect` at CsvViewer.tsx:183: recompute `filteredData` and reset
`currentPage` to 1.  It runs after every change to the data, the search
term, the column filters or the sort configuration. -/
def runFilterEffect (s : ViewerState) : ViewerState :=
  { s with
    filteredData := computeFiltered s.data s.globalSearchQuery s.columnFilters s.sortConfig
    currentPage := 1 }

/-- `setGlobalSearchQuery` followed by the effect. -/
def setGlobalSearch (q : Str) (s : ViewerState) : ViewerState :=
  runFilterEffect { s with globalSearchQuery := q }

/-- `addColumnFilter` (CsvViewer.tsx:265): replace the filter of the same
column in place, else append; the effect then re-runs. -/
def addColumnFilter (col val : Str) (op : FilterOp) (s : ViewerState) : ViewerState :=
  runFilterEffect
    { s with
      columnFilters :=
        match s.columnFilters.findIdx? (fun f => f.column == col) with
        | some i => s.columnFilters.set i ⟨col, val, op⟩
        | none => s.columnFilters ++ [⟨col, val, op⟩] }

/-- `removeColumnFilter` (CsvViewer.tsx:277) followed by the effect. -/
def removeColumnFilter (col : Str) (s : ViewerState) : ViewerState :=
  runFilterEffect { s with columnFilters := s.columnFilters.filter (fun f => !(f.column == col)) }

/-- `clearAllFilters` (CsvViewer.tsx:281) followed by the effect. -/
def clearAllFilters (s : ViewerState) : ViewerState :=
  runFilterEffect { s with columnFilters := [], globalSearchQuery := [] }

/-- The toggle rule of `handleSort` (CsvViewer.tsx:247–252): same key while
ascending flips to descending, anything else resets to ascending. -/
def nextDirection (cur : Option SortConfig) (col : Str) : SortDir :=
  match cur with
  | some c => if c.key = col ∧ c.direction = .asc then .desc else .asc
  | none => .asc

/-- `handleSort` followed by the effect. -/
def handleSort (col : Str) (s : ViewerState) : ViewerState :=
  runFilterEffect { s with sortConfig := some ⟨col, nextDirection s.sortConfig col⟩ }

/-- `handleItemsPerPageChange` (CsvViewer.tsx:318). -/
def handleItemsPerPageChange (n : ℕ) (s : ViewerState) : ViewerState :=
  { s with itemsPerPage := n, currentPage := 1 }

/-- `Math.ceil(a / b)` on naturals. -/
def ceilDivNat (a b : ℕ) : ℕ := (a + b - 1) / b

/-- `totalPages` (CsvViewer.tsx:341). -/
def totalPages (s : ViewerState) : ℕ := ceilDivNat s.filteredData.length s.itemsPerPage

/-- `goToPage` (CsvViewer.tsx:302): clamp to `[1, totalPages]`. -/
def goToPage (p : ℕ) (s : ViewerState) : ViewerState :=
  { s with currentPage := max 1 (min p (totalPages s)) }

/-- The visible page slice (CsvViewer.tsx:342–344). -/
def currentData (s : ViewerState) : List Row :=
  (s.filteredData.drop ((s.currentPage - 1) * s.itemsPerPage)).take s.itemsPerPage

/-- A node of the extracted hierarchy (utils.ts:69, 92, 106): a folder with
ordered children, or a leaf file with its classified type.  Timestamps are
modelled as integers (milliseconds since the epoch underlying the ISO
strings of the source). -/
inductive Node where
  | folder (name : Str) (createdAt : ℤ) (modifiedBy : Str) (children : List Node)
  | file (name : Str) (fileType : Str) (createdAt : ℤ) (modifiedBy : Str)

/-- A file child appended during the walk (utils.ts:106–113). -/
structure FileChild where
  name : Str
  fileType : Str
  createdAt : ℤ
deriving DecidableEq

/-- A child reference inside the walker's arena: an owned file, or the index
of a folder record (the aliasing of the source's mutable `folderMap`). -/
inductive ChildRef where
  | file (f : FileChild)
  | folderRef (id : ℕ)
deriving DecidableEq

/-- One folder record of the walker's arena. -/
structure FolderRec where
  name : Str
  createdAt : ℤ
  children : List ChildRef
deriving DecidableEq

/-- The walker's mutable state: the arena of folder records (index 0 is the
root) and the path → folder map. -/
structure WalkState where
  arena : List FolderRec
  folderMap : List (Str × ℕ)
deriving DecidableEq

/-- One decoded archive entry: its relative path, its directory flag, and
its optional embedded modification time (utils.ts:80–89). -/
structure ZipEntry where
  path : Str
  isDir : Bool
  date : Option ℤ
deriving DecidableEq

/-- `folderMap.get(p)`: the most recently registered folder at path `p`. -/
def mapLookup (m : List (Str × ℕ)) (p : Str) : Option ℕ :=
  (m.find? (fun q => q.1 == p)).map (·.2)

/-- Append a child to the folder record at index `pid`. -/
def pushChild (arena : List FolderRec) (pid : ℕ) (c : ChildRef) : List FolderRec :=
  match arena.get? pid with
  | none => arena
  | some rec0 => arena.set pid { rec0 with children := rec0.children ++ [c] }

/-- The loop body of `parseZipFile` (utils.ts:80–117): split the path on
slashes, resolve the parent folder in the map (silently skipping the entry
when it is absent), then either register a new folder or, for a supported
extension, append a file child. -/
def processEntry (now : ℤ) (s : WalkState) (e : ZipEntry) : WalkState :=
  let parts := (splitOnCharList '/' e.path).filter (fun p => !p.isEmpty)
  let name := parts.getLastD []
  let parentPath := joinChar '/' parts.dropLast
  match mapLookup s.folderMap parentPath with
  | none => s
  | some pid =>
    let createdAt := e.date.getD now
    if e.isDir then
      let nid := s.arena.length
      { arena := pushChild s.arena pid (.folderRef nid) ++ [⟨name, createdAt, []⟩]
        folderMap := (joinChar '/' parts, nid) :: s.folderMap }
    else
      let ext := lowerList ((splitOnCharList '.' name).getLastD [])
      if ext = "csv".data ∨ ext = "pdf".data then
        { arena := pushChild s.arena pid (.file ⟨name, ext, createdAt⟩)
          folderMap := s.folderMap }
      else s

/-- Materialize the arena into an owned `Node` tree.  Child folder indices
are always larger than their parent's (children are appended after their
parent exists), so `fuel = arena.length` always suffices. -/
def materialize (arena : List FolderRec) (modifiedBy : Str) : ℕ → ℕ → Node
  | 0, _ => .folder [] 0 modifiedBy []
  | fuel + 1, id =>
    match arena.get? id with
    | none => .folder [] 0 modifiedBy []
    | some rec0 =>
      .folder rec0.name rec0.createdAt modifiedBy
        (rec0.children.map (fun c =>
          match c with
          | .file f => .file f.name f.fileType f.createdAt modifiedBy
          | .folderRef cid => materialize arena modifiedBy fuel cid))

/-- `parseZipFile` (utils.ts:66): initialize the root folder (archive name
minus its `.zip` extension, the archive's own modification time) and the
path map, iterate the decoder's entries in order, then read off the tree. -/
def parseZipFile (zipName : Str) (zipLastModified : ℤ) (modifiedBy : Str) (now : ℤ)
    (entries : List ZipEntry) : Node :=
  let root : FolderRec :=
    { name := if ".zip".data.isSuffixOf zipName then zipName.take (zipName.length - 4) else zipName
      createdAt := zipLastModified
      children := [] }
  let init : WalkState := { arena := [root], folderMap := [([], 0)] }
  let final := entries.foldl (processEntry now) init
  materialize final.arena modifiedBy (final.arena.length + 1) 0

/-- The tree-sort key of `filterAndSortTree` (utils.ts:128). -/
inductive SortKey where
  | name | createdAt
deriving DecidableEq

/-- The node's display name. -/
def nodeName : Node → Str
  | .folder n _ _ _ => n
  | .file n _ _ _ => n

/-- The node's creation timestamp. -/
def nodeCreatedAt : Node → ℤ
  | .folder _ c _ _ => c
  | .file _ _ c _ => c

/-- `node.type === "folder"`. -/
def isFolderNode : Node → Bool
  | .folder _ _ _ _ => true
  | .file _ _ _ _ => false

/-- `compareFn(a, b) ≤ 0` for the tree sort (utils.ts:137–140):
`localeCompare` modelled as code-unit lexicographic comparison, `createdAt`
compared chronologically. -/
def treeLe (sk : SortKey) (a b : Node) : Bool :=
  match sk with
  | .name => !lexLt (nodeName b) (nodeName a)
  | .createdAt => decide (nodeCreatedAt a ≤ nodeCreatedAt b)

mutual

/-- `filterAndSortTree` (utils.ts:128–145): a file survives iff its name
matches the query case-insensitively; a folder's surviving children are
re-grouped folders-then-files, each group stably sorted by the key, and the
folder itself survives only when some child survived. -/
def filterAndSortTree (n : Node) (q : Str) (sk : SortKey) : List Node :=
  match n with
  | .file name ft cd mb =>
    if containsSub (lowerList name) (lowerList q) then [.file name ft cd mb] else []
  | .folder name cd mb children =>
    let filteredChildren := filterChildren children q sk
    let folders := filteredChildren.filter isFolderNode
    let files := filteredChildren.filter (fun c => !isFolderNode c)
    let sortedChildren :=
      folders.insertionSort (fun a b => treeLe sk a b = true) ++
        files.insertionSort (fun a b => treeLe sk a b = true)
    if sortedChildren.length > 0 then [.folder name cd mb sortedChildren] else []

/-- `node.children.flatMap(child => filterAndSortTree(child, ...))`. -/
def filterChildren (cs : List Node) (q : Str) (sk : SortKey) : List Node :=
  match cs with
  | [] => []
  | c :: rest => filterAndSortTree c q sk ++ filterChildren rest q sk

end

example : parseCsvLine "Alice,30".data = ["Alice".data, "30".data] := by decide

example : parseCsvLine "\"Bob, Jr\",25".data = ["Bob, Jr".data, "25".data] := by decide

example : parseDecimal "30".data = some ((30 : ℤ), 1) := by decide

example : parseDecimal "-2.50e1".data = some ((-2500 : ℤ), 100) := by decide

example : parseDecimal "Alice".data = none := by decide

/-- C2: on the input `Name,Age\nAlice,30\n"Bob, Jr",25\n` the parser yields
columns `["Name", "Age"]` and the rows `{Name: "Alice", Age: 30}` and
`{Name: "Bob, Jr", Age: 25}` with `Age` coerced to a number; the column
filter `Age greater "26"` retains only the Alice row; sorting the full
unfiltered set by `Age` descending yields Alice (30) then Bob, Jr (25). -/
theorem csv_concrete_scenario :
    parseCsvFile "Name,Age\nAlice,30\n\"Bob, Jr\",25\n".data =
      .ok
        ([[("Name".data, Value.str "Alice".data), ("Age".data, Value.num "30".data)],
          [("Name".data, Value.str "Bob, Jr".data), ("Age".data, Value.num "25".data)]],
         ["Name".data, "Age".data]) ∧
    parseDecimal "30".data = some ((30 : ℤ), 1) ∧
    parseDecimal "25".data = some ((25 : ℤ), 1) ∧
    applyColumnFilters [⟨"Age".data, "26".data, FilterOp.greater⟩]
        [[("Name".data, Value.str "Alice".data), ("Age".data, Value.num "30".data)],
         [("Name".data, Value.str "Bob, Jr".data), ("Age".data, Value.num "25".data)]] =
      [[("Name".data, Value.str "Alice".data), ("Age".data, Value.num "30".data)]] ∧
    sortRows ⟨"Age".data, SortDir.desc⟩
        [[("Name".data, Value.str "Alice".data), ("Age".data, Value.num "30".data)],
         [("Name".data, Value.str "Bob, Jr".data), ("Age".data, Value.num "25".data)]] =
      [[("Name".data, Value.str "Alice".data), ("Age".data, Value.num "30".data)],
       [("Name".data, Value.str "Bob, Jr".data), ("Age".data, Value.num "25".data)]] := by
  exact ⟨rfl, by decide, by decide, by decide, by decide⟩

/-- C5, universal part is stated over the walker step: an entry whose
computed parent path is not registered in the path → folder map leaves the
walker state unchanged (silently skipped, not retried and not an error). -/
theorem processEntry_skips_orphan (now : ℤ) (s : WalkState) (e : ZipEntry)
    (h : mapLookup s.folderMap
      (joinChar '/' (((splitOnCharList '/' e.path).filter (fun p => !p.isEmpty)).dropLast)) =
        none) :
    processEntry now s e = s := by
  simp only [processEntry, h]

/-- C5: walking the entries `["a/", "a/b.csv", "a/c.txt", "d.pdf"]` (in that
order) produces root → folder "a" → file "b.csv" (fileType csv) plus
root → file "d.pdf", with "a/c.txt" absent because `txt` is unsupported;
and an entry whose computed parent path is not yet registered in the
path → folder map is silently skipped. -/
theorem zip_walk_example_and_orphan_skip :
    parseZipFile "x.zip".data 5 "You".data 99
        [⟨"a/".data, true, some 10⟩, ⟨"a/b.csv".data, false, some 11⟩,
         ⟨"a/c.txt".data, false, some 12⟩, ⟨"d.pdf".data, false, some 13⟩] =
      Node.folder "x".data 5 "You".data
        [Node.folder "a".data 10 "You".data
          [Node.file "b.csv".data "csv".data 11 "You".data],
         Node.file "d.pdf".data "pdf".data 13 "You".data] ∧
    ∀ (now : ℤ) (s : WalkState) (e : ZipEntry),
      mapLookup s.folderMap
          (joinChar '/' (((splitOnCharList '/' e.path).filter (fun p => !p.isEmpty)).dropLast)) =
        none →
      processEntry now s e = s :=
  ⟨rfl, processEntry_skips_orphan⟩

/-- Rows surviving `applyColumnFilters` come from the input list and pass
every active (non-empty-valued) filter. -/
theorem mem_applyColumnFilters {fs : List ColumnFilter} {l : List Row} {row : Row}
    (h : row ∈ applyColumnFilters fs l) :
    row ∈ l ∧ ∀ f ∈ fs, f.value ≠ [] → rowMatchesFilter f row = true := by
  induction fs generalizing l with
  | nil => exact ⟨h, by simp⟩
  | cons f fs ih =>
    have h' : row ∈ (if f.value.isEmpty then l else l.filter (rowMatchesFilter f)) ∧
        ∀ g ∈ fs, g.value ≠ [] → rowMatchesFilter g row = true := ih h
    rcases h' with ⟨h1, h2⟩
    by_cases hv : f.value.isEmpty
    · refine ⟨by simpa [hv] using h1, ?_⟩
      intro g hg
      rcases List.mem_cons.mp hg with hg | hg
      · subst hg
        intro hne
        exact absurd (List.isEmpty_iff.mp hv) hne
      · exact h2 g hg
    · rw [if_neg hv] at h1
      rcases List.mem_filter.mp h1 with ⟨hmem, hpred⟩
      refine ⟨hmem, ?_⟩
      intro g hg
      rcases List.mem_cons.mp hg with hg | hg
      · subst hg
        exact fun _ => hpred
      · exact h2 g hg

/-- `applyColumnFilters` never grows the row set. -/
theorem length_applyColumnFilters_le (fs : List ColumnFilter) (l : List Row) :
    (applyColumnFilters fs l).length ≤ l.length := by
  induction fs generalizing l with
  | nil => exact Nat.le_refl _
  | cons f fs ih =>
    refine Nat.le_trans (ih _) ?_
    by_cases hv : f.value.isEmpty
    · simp [hv]
    · simpa [hv] using List.length_filter_le _ l

/-- `includes('')` is true: every string has the empty prefix at position
zero. -/
theorem containsSub_nil (l : Str) : containsSub l [] = true := by
  cases l <;> simp [containsSub, List.tails, List.isPrefixOf]

/-- A nonempty row matches the empty search term. -/
theorem rowMatchesSearch_nil {row : Row} (h : row ≠ []) :
    rowMatchesSearch [] row = true := by
  match row, h with
  | p :: rest, _ =>
    simp [rowMatchesSearch, rowValues, lowerList, containsSub_nil]

/-- C3: for every row set with no degenerate (zero-column) rows, every
search term and every filter list, the filtered row count is at most the
original count, and every retained row satisfies the global search
predicate and every active column filter predicate (the predicates being
those of the code: lower-cased string comparisons, numeric
greater/less degenerating to false on non-numbers). -/
theorem filter_pass_sound (data : List Row) (q : Str) (fs : List ColumnFilter)
    (hne : ∀ r ∈ data, r ≠ []) :
    (applyColumnFilters fs (applyGlobalSearch q data)).length ≤ data.length ∧
    ∀ row ∈ applyColumnFilters fs (applyGlobalSearch q data),
      rowMatchesSearch q row = true ∧
      ∀ f ∈ fs, f.value ≠ [] → rowMatchesFilter f row = true := by
  constructor
  · refine Nat.le_trans (length_applyColumnFilters_le fs _) ?_
    by_cases hq : q.isEmpty
    · simp [applyGlobalSearch, hq]
    · simpa [applyGlobalSearch, hq] using List.length_filter_le _ data
  · intro row hrow
    rcases mem_applyColumnFilters hrow with ⟨h1, h2⟩
    refine ⟨?_, h2⟩
    by_cases hq : q.isEmpty
    · rw [applyGlobalSearch, if_pos hq] at h1
      have : q = [] := List.isEmpty_iff.mp hq
      subst this
      exact rowMatchesSearch_nil (hne row h1)
    · rw [applyGlobalSearch, if_neg hq] at h1
      exact (List.mem_filter.mp h1).2

/-- C3 witness: the concrete two-row set of the CSV scenario, searched for
"a" and filtered by `Age less "26"`. -/
theorem filter_pass_sound_witness :
    (applyColumnFilters [⟨"Age".data, "26".data, FilterOp.less⟩]
        (applyGlobalSearch "a".data
          [[("Name".data, Value.str "Alice".data), ("Age".data, Value.num "30".data)],
           [("Name".data, Value.str "Bob, Jr".data), ("Age".data, Value.num "25".data)]])).length ≤
      2 ∧
    ∀ row ∈ applyColumnFilters [⟨"Age".data, "26".data, FilterOp.less⟩]
        (applyGlobalSearch "a".data
          [[("Name".data, Value.str "Alice".data), ("Age".data, Value.num "30".data)],
           [("Name".data, Value.str "Bob, Jr".data), ("Age".data, Value.num "25".data)]]),
      rowMatchesSearch "a".data row = true ∧
      ∀ f ∈ [(⟨"Age".data, "26".data, FilterOp.less⟩ : ColumnFilter)],
        f.value ≠ [] → rowMatchesFilter f row = true :=
  filter_pass_sound
    [[("Name".data, Value.str "Alice".data), ("Age".data, Value.num "30".data)],
     [("Name".data, Value.str "Bob, Jr".data), ("Age".data, Value.num "25".data)]]
    "a".data [⟨"Age".data, "26".data, FilterOp.less⟩] (by decide)

/-- C10: a column filter whose value is the empty string is skipped entirely
by the filter pass, for every operator: removing it from the filter list
does not change the surviving row set. -/
theorem empty_valued_filter_skipped (fs₁ fs₂ : List ColumnFilter) (f : ColumnFilter)
    (l : List Row) (h : f.value = []) :
    applyColumnFilters (fs₁ ++ f :: fs₂) l = applyColumnFilters (fs₁ ++ fs₂) l := by
  simp [applyColumnFilters, List.foldl_append, h]

/-- C10 witness: an `equals` filter with empty value on a set containing a
row whose `Age` cell is empty does not restrict the set at all. -/
theorem empty_valued_filter_skipped_witness :
    applyColumnFilters ([] ++ (⟨"Age".data, [], FilterOp.equals⟩ : ColumnFilter) :: [])
        [[("Age".data, Value.str [])], [("Age".data, Value.num "30".data)]] =
      applyColumnFilters ([] ++ [])
        [[("Age".data, Value.str [])], [("Age".data, Value.num "30".data)]] :=
  empty_valued_filter_skipped [] [] ⟨"Age".data, [], FilterOp.equals⟩
    [[("Age".data, Value.str [])], [("Age".data, Value.num "30".data)]] rfl

/-- The slice of page `page` (1-based) of the filtered set, as computed at
CsvViewer.tsx:342–344. -/
def pageSlice (l : List Row) (ipp page : ℕ) : List Row :=
  (l.drop ((page - 1) * ipp)).take ipp

/-- The pagination clamp invariant: `currentPage` lies in
`[1, ceil(filteredCount / itemsPerPage)]`, with a minimum of one page. -/
def ClampInv (s : ViewerState) : Prop :=
  1 ≤ s.currentPage ∧ s.currentPage ≤ max 1 (totalPages s)

/-- Recurrence for `Math.ceil(a / b)`: one full page plus the pages of the
remainder. -/
theorem ceilDivNat_rec {a b : ℕ} (ha : 0 < a) (hb : 0 < b) :
    ceilDivNat a b = 1 + ceilDivNat (a - b) b := by
  unfold ceilDivNat
  have h1 : a + b - 1 = (a - 1) + b := by omega
  rw [h1, Nat.add_div_right _ hb]
  rcases le_or_lt a b with hab | hab
  · have h2 : a - b = 0 := by omega
    rw [h2]
    have h3 : (a - 1) / b = 0 := Nat.div_eq_of_lt (by omega)
    have h4 : (0 + b - 1) / b = 0 := Nat.div_eq_of_lt (by omega)
    omega
  · have h2 : a - b + b - 1 = (a - 1 - b) + b := by omega
    rw [h2, Nat.add_div_right _ hb]
    have h3 : a - 1 = (a - 1 - b) + b := by omega
    have h4 : (a - 1) / b = (a - 1 - b) / b + 1 := by
      conv_lhs => rw [h3]
      rw [Nat.add_div_right _ hb]
    omega

/-- Concatenating all page slices in order reproduces the whole list. -/
theorem flatten_pageSlices (N : ℕ) :
    ∀ (l : List Row) (ipp : ℕ), 0 < ipp → l.length ≤ N →
      ((List.range (ceilDivNat l.length ipp)).map (fun i => pageSlice l ipp (i + 1))).flatten =
        l := by
  induction N with
  | zero =>
    intro l ipp hipp hlen
    have : l = [] := List.eq_nil_of_length_eq_zero (Nat.le_zero.mp hlen)
    subst this
    have : ceilDivNat 0 ipp = 0 := Nat.div_eq_of_lt (by omega)
    simp [this]
  | succ N ih =>
    intro l ipp hipp hlen
    rcases List.eq_nil_or_concat l with hnil | _
    · subst hnil
      have : ceilDivNat 0 ipp = 0 := Nat.div_eq_of_lt (by omega)
      simp [this]
    · have hpos : 0 < l.length := by
        rcases l with _ | ⟨x, xs⟩
        · rename_i h
          rcases h with ⟨_, _, h⟩
          exact absurd h (by simp)
        · simp
      rw [ceilDivNat_rec hpos hipp, Nat.add_comm 1, List.range_succ_eq_map]
      have hdrop : (l.drop ipp).length = l.length - ipp := List.length_drop ipp l
      have hrec :
          ((List.range (ceilDivNat (l.length - ipp) ipp)).map
              (fun i => pageSlice (l.drop ipp) ipp (i + 1))).flatten = l.drop ipp := by
        rw [← hdrop]
        exact ih (l.drop ipp) ipp hipp (by omega)
      have hstep : ∀ i : ℕ, pageSlice l ipp (Nat.succ i + 1) = pageSlice (l.drop ipp) ipp (i + 1) := by
        intro i
        unfold pageSlice
        rw [List.drop_drop]
        congr 2
        simp only [Nat.add_sub_cancel, Nat.succ_eq_add_one]
        ring
      simp only [List.map_cons, List.map_map, List.flatten_cons]
      have hfirst : pageSlice l ipp (0 + 1) = l.take ipp := by
        unfold pageSlice
        simp
      rw [hfirst]
      have hmap : List.map ((fun i => pageSlice l ipp (i + 1)) ∘ Nat.succ)
            (List.range (ceilDivNat (l.length - ipp) ipp)) =
          List.map (fun i => pageSlice (l.drop ipp) ipp (i + 1))
            (List.range (ceilDivNat (l.length - ipp) ipp)) :=
        List.map_congr_left (fun i _ => hstep i)
      rw [hmap, hrec, List.take_append_drop]

/-- C4: every filter, search, sort and page-size change resets `currentPage`
to 1; `goToPage` (and every other operation) keeps `currentPage` clamped to
`[1, ceil(filteredCount / itemsPerPage)]` with a minimum of one page; the
visible slice never exceeds `itemsPerPage` rows; and concatenating all page
slices in order reproduces the filtered set exactly. -/
theorem pagination_invariants :
    (∀ (q : Str) (s : ViewerState), (setGlobalSearch q s).currentPage = 1) ∧
    (∀ (c v : Str) (op : FilterOp) (s : ViewerState),
      (addColumnFilter c v op s).currentPage = 1) ∧
    (∀ (c : Str) (s : ViewerState), (removeColumnFilter c s).currentPage = 1) ∧
    (∀ s : ViewerState, (clearAllFilters s).currentPage = 1) ∧
    (∀ (c : Str) (s : ViewerState), (handleSort c s).currentPage = 1) ∧
    (∀ (n : ℕ) (s : ViewerState), (handleItemsPerPageChange n s).currentPage = 1) ∧
    (∀ (p : ℕ) (s : ViewerState), ClampInv (goToPage p s)) ∧
    (∀ (q : Str) (s : ViewerState), ClampInv (setGlobalSearch q s)) ∧
    (∀ (n : ℕ) (s : ViewerState), ClampInv (handleItemsPerPageChange n s)) ∧
    (∀ s : ViewerState, (currentData s).length ≤ s.itemsPerPage) ∧
    (∀ s : ViewerState, 0 < s.itemsPerPage →
      ((List.range (totalPages s)).map
          (fun i => pageSlice s.filteredData s.itemsPerPage (i + 1))).flatten =
        s.filteredData) := by
  refine ⟨fun _ _ => rfl, fun _ _ _ _ => rfl, fun _ _ => rfl, fun _ => rfl, fun _ _ => rfl,
    fun _ _ => rfl, ?_, ?_, ?_, ?_, ?_⟩
  · intro p s
    constructor
    · exact Nat.le_max_left 1 _
    · have : totalPages (goToPage p s) = totalPages s := rfl
      rw [this]
      show max 1 (min p (totalPages s)) ≤ max 1 (totalPages s)
      omega
  · intro q s
    exact ⟨Nat.le_refl 1, Nat.le_max_left 1 _⟩
  · intro n s
    exact ⟨Nat.le_refl 1, Nat.le_max_left 1 _⟩
  · intro s
    show ((s.filteredData.drop _).take s.itemsPerPage).length ≤ s.itemsPerPage
    rw [List.length_take]
    omega
  · intro s hipp
    exact flatten_pageSlices s.filteredData.length s.filteredData s.itemsPerPage hipp
      (Nat.le_refl _)

/-- C4 witness: a concrete settled state with three filtered rows and two
rows per page; its two slices concatenate back to the filtered set. -/
theorem pagination_invariants_witness :
    ((List.range (totalPages
        (ViewerState.mk [] [[("A".data, Value.num "1".data)],
          [("A".data, Value.num "2".data)], [("A".data, Value.num "3".data)]]
          [] [] none 1 2))).map
        (fun i => pageSlice [[("A".data, Value.num "1".data)],
          [("A".data, Value.num "2".data)], [("A".data, Value.num "3".data)]] 2 (i + 1))).flatten =
      [[("A".data, Value.num "1".data)],
        [("A".data, Value.num "2".data)], [("A".data, Value.num "3".data)]] :=
  pagination_invariants.2.2.2.2.2.2.2.2.2.2
    (ViewerState.mk [] [[("A".data, Value.num "1".data)],
      [("A".data, Value.num "2".data)], [("A".data, Value.num "3".data)]] [] [] none 1 2)
    (by decide)

/-- C6: sorting an already-sorted-by-(key, direction) row set by the same
key and direction yields an identical sequence; toggling the sort on the
same key twice from the ascending state returns the configuration to
ascending and recomputes exactly the original filtered/sorted sequence
(ties keep their stable relative order because the sequences coincide);
and selecting a key that is not the current sort key resets the direction
to ascending. -/
theorem sort_toggle_and_idempotence :
    (∀ (sc : SortConfig) (l : List Row),
      List.Pairwise (fun a b => sortLe sc a b = true) l → sortRows sc l = l) ∧
    (∀ (col : Str) (s : ViewerState), s.sortConfig = some ⟨col, SortDir.asc⟩ →
      (handleSort col (handleSort col s)).sortConfig = s.sortConfig ∧
      (handleSort col (handleSort col s)).filteredData =
        computeFiltered s.data s.globalSearchQuery s.columnFilters s.sortConfig) ∧
    (∀ (col : Str) (s : ViewerState),
      (∀ c : SortConfig, s.sortConfig = some c → c.key ≠ col) →
      (handleSort col s).sortConfig = some ⟨col, SortDir.asc⟩) := by
  refine ⟨?_, ?_, ?_⟩
  · intro sc l h
    exact List.Sorted.insertionSort_eq h
  · intro col s h
    constructor
    · simp [handleSort, runFilterEffect, nextDirection, h]
    · simp [handleSort, runFilterEffect, nextDirection, h]
  · intro col s h
    rcases hcfg : s.sortConfig with _ | c
    · simp [handleSort, runFilterEffect, nextDirection, hcfg]
    · have : c.key ≠ col := h c hcfg
      simp [handleSort, runFilterEffect, nextDirection, hcfg, this]

/-- C6 witness: a two-row set already ascending on `Age` is unchanged by
re-sorting; toggling `Age` twice from ascending restores the ascending
configuration and view; sorting by a fresh key starts ascending. -/
theorem sort_toggle_and_idempotence_witness :
    sortRows ⟨"Age".data, SortDir.asc⟩
        [[("Age".data, Value.num "25".data)], [("Age".data, Value.num "30".data)]] =
      [[("Age".data, Value.num "25".data)], [("Age".data, Value.num "30".data)]] ∧
    (handleSort "Age".data (handleSort "Age".data
        (ViewerState.mk [] [] [] [] (some ⟨"Age".data, SortDir.asc⟩) 1 5))).sortConfig =
      (ViewerState.mk [] [] [] [] (some ⟨"Age".data, SortDir.asc⟩) 1 5).sortConfig ∧
    (handleSort "Age".data (ViewerState.mk [] [] [] [] none 1 5)).sortConfig =
      some ⟨"Age".data, SortDir.asc⟩ :=
  ⟨sort_toggle_and_idempotence.1 ⟨"Age".data, SortDir.asc⟩
      [[("Age".data, Value.num "25".data)], [("Age".data, Value.num "30".data)]] (by decide),
   (sort_toggle_and_idempotence.2.1 "Age".data
      (ViewerState.mk [] [] [] [] (some ⟨"Age".data, SortDir.asc⟩) 1 5) rfl).1,
   sort_toggle_and_idempotence.2.2 "Age".data (ViewerState.mk [] [] [] [] none 1 5)
      (by intro c hc; cases hc)⟩

/-- `trimList` is a left trim followed by a right trim. -/
theorem trimList_eq (l : Str) :
    trimList l = List.rdropWhile Char.isWhitespace (List.dropWhile Char.isWhitespace l) := rfl

/-- A trimmed string has no leading whitespace. -/
theorem dropWhile_trimList (l : Str) :
    List.dropWhile Char.isWhitespace (trimList l) = trimList l := by
  apply List.dropWhile_eq_self_iff.mpr
  intro hl
  have hne : trimList l ≠ [] := List.ne_nil_of_length_pos hl
  have hAne : List.dropWhile Char.isWhitespace l ≠ [] := by
    intro h0
    apply hne
    rw [trimList_eq, h0]
    rfl
  have hpre : trimList l <+: List.dropWhile Char.isWhitespace l := by
    rw [trimList_eq]
    exact List.rdropWhile_prefix _ _
  have hhead : (trimList l).head hne = (List.dropWhile Char.isWhitespace l).head hAne :=
    hpre.head hne
  have hws := List.head_dropWhile_not Char.isWhitespace l hAne
  have hget : (trimList l).get ⟨0, hl⟩ = (trimList l).head hne := by
    rw [List.get_eq_getElem]
    exact (List.head_eq_getElem_zero hne).symm
  rw [hget, hhead, hws]
  simp

/-- `trim` is idempotent. -/
theorem trimList_idem (l : Str) : trimList (trimList l) = trimList l := by
  conv_lhs => rw [trimList_eq]
  rw [dropWhile_trimList, trimList_eq]
  exact List.rdropWhile_idempotent _ _

/-- Scanner step: end of line emits the accumulated text as the last field
(also while still inside quotes — unbalanced quotes are not an error). -/
theorem parseCsvLineAux_nil (b : Bool) (cur : Str) :
    parseCsvLineAux [] b cur = [trimList cur] := rfl

/-- Scanner step: a quote immediately followed by a quote while inside
quotes emits a literal quote and consumes both characters. -/
theorem parseCsvLineAux_escaped (rest cur : Str) :
    parseCsvLineAux ('"' :: '"' :: rest) true cur =
      parseCsvLineAux rest true (cur ++ ['"']) := rfl

/-- Scanner step: any other quote toggles the in-quotes state without being
emitted. -/
theorem parseCsvLineAux_toggle (rest : Str) (b : Bool) (cur : Str)
    (h : ¬(b = true ∧ rest.head? = some '"')) :
    parseCsvLineAux ('"' :: rest) b cur = parseCsvLineAux rest (!b) cur := by
  cases b with
  | false =>
    rcases rest with _ | ⟨c, r⟩
    · rfl
    · rw [parseCsvLineAux.eq_def]
      split <;> simp_all [@eq_comm Char]
  | true =>
    rcases rest with _ | ⟨c, r⟩
    · rfl
    · have hc : c ≠ '"' := by simpa using h
      rw [parseCsvLineAux.eq_def]
      split <;> simp_all [@eq_comm Char]

/-- Scanner step: a comma outside quotes completes the current field,
trimmed. -/
theorem parseCsvLineAux_comma_out (rest cur : Str) :
    parseCsvLineAux (',' :: rest) false cur =
      trimList cur :: parseCsvLineAux rest false [] := rfl

/-- Scanner step: a comma inside quotes is accumulated like any other
character. -/
theorem parseCsvLineAux_comma_in (rest cur : Str) :
    parseCsvLineAux (',' :: rest) true cur =
      parseCsvLineAux rest true (cur ++ [',']) := rfl

/-- Scanner step: every other character is accumulated into the current
field. -/
theorem parseCsvLineAux_other (c : Char) (rest : Str) (b : Bool) (cur : Str)
    (hc : c ≠ '"') (hcb : ¬(c = ',' ∧ b = false)) :
    parseCsvLineAux (c :: rest) b cur = parseCsvLineAux rest b (cur ++ [c]) := by
  rw [parseCsvLineAux.eq_def]
  split <;> simp_all [@eq_comm Char]

/-- The scanner always produces at least one field and every field it
produces is trimmed. -/
theorem parseCsvLineAux_total_trimmed :
    ∀ (l : Str) (b : Bool) (cur : Str),
      parseCsvLineAux l b cur ≠ [] ∧ ∀ f ∈ parseCsvLineAux l b cur, trimList f = f := by
  intro l b cur
  induction l, b, cur using parseCsvLineAux.induct with
  | case1 b cur =>
    refine ⟨by simp [parseCsvLineAux_nil], ?_⟩
    intro f hf
    rw [parseCsvLineAux_nil] at hf
    rw [List.mem_singleton.mp hf]
    exact trimList_idem cur
  | case2 rest2 cur ih =>
    rw [parseCsvLineAux_escaped]
    exact ih
  | case3 rest b cur hside ih =>
    have h' : ¬(b = true ∧ rest.head? = some '"') := by
      rintro ⟨hb, hh⟩
      rcases rest with _ | ⟨c, r⟩
      · simp at hh
      · simp only [List.head?_cons, Option.some.injEq] at hh
        exact hside r (by rw [hh]) hb
    rw [parseCsvLineAux_toggle rest b cur h']
    exact ih
  | case4 c rest b cur h1 h2 hcond ih =>
    obtain ⟨rfl, rfl⟩ := hcond
    rw [parseCsvLineAux_comma_out]
    refine ⟨by simp, ?_⟩
    intro f hf
    rcases List.mem_cons.mp hf with hf | hf
    · rw [hf]
      exact trimList_idem cur
    · exact ih.2 f hf
  | case5 c rest b cur h1 h2 hncond ih =>
    have hc : c ≠ '"' := fun h => h2 h
    rw [parseCsvLineAux_other c rest b cur hc hncond]
    exact ih

/-- C8: the line tokenizer's complete behavior — the escaped-quote rule
(a quote directly followed by a quote while inside quotes emits a literal
quote and consumes two characters), the toggle rule for any other quote, a
comma splitting fields only outside quotes and accumulated inside, every
other character accumulated, every completed field (including the final
one at end of line) trimmed of surrounding whitespace, and no failure on
unbalanced quotes: the end of the line always emits the accumulated text
as the last field. -/
theorem tokenizer_characterization :
    (∀ rest cur : Str, parseCsvLineAux ('"' :: '"' :: rest) true cur =
      parseCsvLineAux rest true (cur ++ ['"'])) ∧
    (∀ (rest : Str) (b : Bool) (cur : Str), ¬(b = true ∧ rest.head? = some '"') →
      parseCsvLineAux ('"' :: rest) b cur = parseCsvLineAux rest (!b) cur) ∧
    (∀ rest cur : Str, parseCsvLineAux (',' :: rest) false cur =
      trimList cur :: parseCsvLineAux rest false []) ∧
    (∀ rest cur : Str, parseCsvLineAux (',' :: rest) true cur =
      parseCsvLineAux rest true (cur ++ [','])) ∧
    (∀ (c : Char) (rest : Str) (b : Bool) (cur : Str), c ≠ '"' → ¬(c = ',' ∧ b = false) →
      parseCsvLineAux (c :: rest) b cur = parseCsvLineAux rest b (cur ++ [c])) ∧
    (∀ (b : Bool) (cur : Str), parseCsvLineAux [] b cur = [trimList cur]) ∧
    (∀ l : Str, parseCsvLine l ≠ [] ∧ ∀ f ∈ parseCsvLine l, trimList f = f) :=
  ⟨parseCsvLineAux_escaped, parseCsvLineAux_toggle, parseCsvLineAux_comma_out,
   parseCsvLineAux_comma_in, parseCsvLineAux_other, parseCsvLineAux_nil,
   fun l => parseCsvLineAux_total_trimmed l false []⟩

/-- C8 witness: concrete scanner steps — a toggle on an unescaped quote and
the accumulation of an ordinary character — obtained from the
characterization at concrete inputs. -/
theorem tokenizer_characterization_witness :
    parseCsvLineAux ('"' :: "a\"".data) false [] = parseCsvLineAux "a\"".data true [] ∧
    parseCsvLineAux ('a' :: ",b".data) true "x".data =
      parseCsvLineAux ",b".data true ("x".data ++ ['a']) :=
  ⟨tokenizer_characterization.2.1 "a\"".data false [] (by decide),
   tokenizer_characterization.2.2.2.2.1 'a' ",b".data true "x".data (by decide) (by decide)⟩

/-- The data-row loop keeps, in order, exactly the rows with some non-empty
field. -/
theorem buildRows_eq_filter (headers : List Str) (lines : List Str) :
    buildRows headers lines =
      (lines.map (fun line => mkRow headers (parseCsvLine line))).filter rowNonEmpty := by
  induction lines with
  | nil => rfl
  | cons line rest ih =>
    simp only [buildRows, List.map_cons, List.filter_cons]
    by_cases h : rowNonEmpty (mkRow headers (parseCsvLine line)) <;> simp [h, ih]

/-- C9: the tabular parser fails with the "CSV file is empty" error exactly
when the input splits into zero non-blank lines; on success the row list
is, in input line order, exactly the parsed data lines whose rows have some
non-empty field — every all-empty row is discarded, the result is a
sublist of the in-order parse (no implicit sort), and every surviving row
has a non-empty field. -/
theorem parser_empty_input_and_discard (t : Str) :
    (parseCsvFile t = .error "CSV file is empty" ↔ nonBlankLines t = []) ∧
    (∀ rows cols, parseCsvFile t = .ok (rows, cols) →
      rows = (((nonBlankLines t).drop 1).map
          (fun line => mkRow cols (parseCsvLine line))).filter rowNonEmpty ∧
      rows.Sublist (((nonBlankLines t).drop 1).map
          (fun line => mkRow cols (parseCsvLine line))) ∧
      ∀ r ∈ rows, rowNonEmpty r = true) := by
  constructor
  · rcases hnb : nonBlankLines t with _ | ⟨h0, rest⟩
    · simp [parseCsvFile, hnb]
    · simp [parseCsvFile, hnb]
  · intro rows cols hok
    rcases hnb : nonBlankLines t with _ | ⟨h0, rest⟩
    · rw [parseCsvFile, hnb] at hok
      cases hok
    · rw [parseCsvFile, hnb] at hok
      injection hok with hpair
      have hrows : rows = buildRows ((parseCsvLine h0).map (fun h => trimList (stripOuterQuotes h))) rest :=
        (congrArg Prod.fst hpair).symm
      have hcols : cols = (parseCsvLine h0).map (fun h => trimList (stripOuterQuotes h)) :=
        (congrArg Prod.snd hpair).symm
      subst hcols
      subst hrows
      rw [buildRows_eq_filter]
      refine ⟨by simp, ?_, ?_⟩
      · simp
      · intro r hr
        have h2 : (∃ a ∈ rest,
            mkRow (List.map (fun h => trimList (stripOuterQuotes h)) (parseCsvLine h0))
              (parseCsvLine a) = r) ∧ rowNonEmpty r = true := by simpa using hr
        exact h2.2

/-- Lexicographic `<` on strings is asymmetric. -/
theorem lexLt_asymm : ∀ {a b : Str}, lexLt a b = true → lexLt b a = false := by
  intro a
  induction a with
  | nil => intro b; cases b <;> simp [lexLt]
  | cons x xs ih =>
    intro b
    cases b with
    | nil => simp [lexLt]
    | cons y ys =>
      simp only [lexLt]
      by_cases h1 : x < y
      · simp [h1, lt_asymm h1]
      · by_cases h2 : y < x
        · simp [h1, h2]
        · simp [h1, h2]
          exact ih

/-- Lexicographic `<` on strings is transitive. -/
theorem lexLt_trans : ∀ {a b c : Str},
    lexLt a b = true → lexLt b c = true → lexLt a c = true := by
  intro a
  induction a with
  | nil =>
    intro b c hab hbc
    cases c with
    | nil =>
      cases b with
      | nil => exact hab
      | cons y ys => simp [lexLt] at hbc
    | cons z zs => simp [lexLt]
  | cons x xs ih =>
    intro b c hab hbc
    cases b with
    | nil => simp [lexLt] at hab
    | cons y ys =>
      cases c with
      | nil => simp [lexLt] at hbc
      | cons z zs =>
        simp only [lexLt] at hab hbc ⊢
        by_cases hxy : x < y
        · by_cases hyz : y < z
          · simp [lt_trans hxy hyz]
          · by_cases hzy : z < y
            · simp [hxy, hyz, hzy] at hbc
            · have hyeqz : y = z := le_antisymm (not_lt.mp hzy) (not_lt.mp hyz)
              subst hyeqz
              simp [hxy]
        · by_cases hyx : y < x
          · simp [hxy, hyx] at hab
          · have hxeqy : x = y := le_antisymm (not_lt.mp hyx) (not_lt.mp hxy)
            subst hxeqy
            simp only [lt_irrefl, if_false] at hab
            by_cases hyz : x < z
            · simp [hyz]
            · by_cases hzy : z < x
              · simp [hyz, hzy] at hbc
              · simp only [hyz, hzy, if_false] at hbc ⊢
                exact ih hab hbc

/-- Lexicographic `<` on strings is trichotomous. -/
theorem lexLt_trichotomy : ∀ (a b : Str), lexLt a b = true ∨ a = b ∨ lexLt b a = true := by
  intro a
  induction a with
  | nil =>
    intro b
    cases b with
    | nil => right; left; rfl
    | cons y ys => left; simp [lexLt]
  | cons x xs ih =>
    intro b
    cases b with
    | nil => right; right; simp [lexLt]
    | cons y ys =>
      rcases lt_trichotomy x y with hxy | hxy | hxy
      · left; simp [lexLt, hxy]
      · subst hxy
        rcases ih ys with h | h | h
        · left; simp [lexLt, h]
        · right; left; rw [h]
        · right; right; simp [lexLt, h]
      · right; right; simp [lexLt, hxy]

/-- The tree comparator is total. -/
theorem treeLe_total (sk : SortKey) (a b : Node) :
    treeLe sk a b = true ∨ treeLe sk b a = true := by
  cases sk with
  | name =>
    simp only [treeLe, Bool.not_eq_true']
    by_cases h : lexLt (nodeName b) (nodeName a) = true
    · right
      rw [lexLt_asymm h]
    · left
      exact Bool.not_eq_true _ ▸ (by simpa using h)
  | createdAt =>
    simp only [treeLe, decide_eq_true_eq]
    exact le_total _ _

/-- The tree comparator is transitive. -/
theorem treeLe_trans (sk : SortKey) (a b c : Node)
    (hab : treeLe sk a b = true) (hbc : treeLe sk b c = true) : treeLe sk a c = true := by
  cases sk with
  | name =>
    simp only [treeLe, Bool.not_eq_true'] at hab hbc ⊢
    by_contra hca
    have hca' : lexLt (nodeName c) (nodeName a) = true := by
      cases h : lexLt (nodeName c) (nodeName a)
      · exact absurd h hca
      · rfl
    rcases lexLt_trichotomy (nodeName b) (nodeName a) with h | h | h
    · rw [h] at hab; cases hab
    · rw [← h] at hca'
      rw [hca'] at hbc; cases hbc
    · have := lexLt_trans hca' h
      rw [this] at hbc; cases hbc
  | createdAt =>
    simp only [treeLe, decide_eq_true_eq] at hab hbc ⊢
    exact le_trans hab hbc

/-- The shape required of a searched-and-sorted folder's children: folders
first, then files, each group sorted by the comparator. -/
def SearchSortShape (sk : SortKey) (cs : List Node) : Prop :=
  ∃ fo fi, cs = fo ++ fi ∧
    (∀ x ∈ fo, isFolderNode x = true) ∧
    (∀ x ∈ fi, isFolderNode x = false) ∧
    fo.Pairwise (fun a b => treeLe sk a b = true) ∧
    fi.Pairwise (fun a b => treeLe sk a b = true)

mutual

/-- The invariant of every node returned by tree search/sort: folders are
nonempty, children are folders-then-files with each group sorted, and the
invariant holds recursively. -/
def GoodTree (sk : SortKey) : Node → Prop
  | .file _ _ _ _ => True
  | .folder _ _ _ cs => cs ≠ [] ∧ SearchSortShape sk cs ∧ GoodForest sk cs

/-- `GoodTree` for every node of a list. -/
def GoodForest (sk : SortKey) : List Node → Prop
  | [] => True
  | c :: rest => GoodTree sk c ∧ GoodForest sk rest

end

/-- `GoodForest` is membership-wise `GoodTree`. -/
theorem goodForest_iff (sk : SortKey) :
    ∀ cs : List Node, GoodForest sk cs ↔ ∀ x ∈ cs, GoodTree sk x := by
  intro cs
  induction cs with
  | nil => simp [GoodForest]
  | cons c rest ih =>
    rw [GoodForest, ih]
    constructor
    · rintro ⟨h1, h2⟩ x hx
      rcases List.mem_cons.mp hx with hx | hx
      · rwa [hx]
      · exact h2 x hx
    · intro h
      exact ⟨h c (List.mem_cons_self c rest), fun x hx => h x (List.mem_cons_of_mem c hx)⟩

/-- Members of the recursively filtered child list come from a child's own
search result. -/
theorem mem_filterChildren {cs : List Node} {q : Str} {sk : SortKey} {m : Node}
    (h : m ∈ filterChildren cs q sk) : ∃ c ∈ cs, m ∈ filterAndSortTree c q sk := by
  induction cs with
  | nil => rw [filterChildren] at h; cases h
  | cons c rest ih =>
    rw [filterChildren] at h
    rcases List.mem_append.mp h with h | h
    · exact ⟨c, List.mem_cons_self c rest, h⟩
    · rcases ih h with ⟨c', hc', hm'⟩
      exact ⟨c', List.mem_cons_of_mem c hc', hm'⟩

/-- C9 witness: a whitespace-only input is rejected as empty, and in
`A\n ,x\n,\n` (one good row, one all-blank row) the blank second data row
is discarded while the first survives. -/
theorem parser_empty_input_and_discard_witness :
    parseCsvFile " \n".data = .error "CSV file is empty" ∧
    ([[("A".data, Value.str "x".data), ("B".data, Value.str [])]] =
      (((nonBlankLines "A,B\nx,\n ,\n".data).drop 1).map
          (fun line => mkRow ["A".data, "B".data] (parseCsvLine line))).filter rowNonEmpty ∧
      List.Sublist [[("A".data, Value.str "x".data), ("B".data, Value.str [])]]
        (((nonBlankLines "A,B\nx,\n ,\n".data).drop 1).map
          (fun line => mkRow ["A".data, "B".data] (parseCsvLine line))) ∧
      ∀ r ∈ [[("A".data, Value.str "x".data), ("B".data, Value.str [])]],
        rowNonEmpty r = true) :=
  ⟨(parser_empty_input_and_discard " \n".data).1.mpr (by decide),
   (parser_empty_input_and_discard "A,B\nx,\n ,\n".data).2
     [[("A".data, Value.str "x".data), ("B".data, Value.str [])]]
     ["A".data, "B".data] rfl⟩

/-- Every node returned by tree search/sort satisfies the full invariant:
no empty folders, folders before files, groups sorted, recursively. -/
theorem filterAndSortTree_good :
    ∀ (n : Node) (q : Str) (sk : SortKey), ∀ m ∈ filterAndSortTree n q sk, GoodTree sk m := by
  have main : ∀ (k : ℕ) (n : Node), sizeOf n < k →
      ∀ (q : Str) (sk : SortKey), ∀ m ∈ filterAndSortTree n q sk, GoodTree sk m := by
    intro k
    induction k with
    | zero =>
      intro n hn
      exact absurd hn (Nat.not_lt_zero _)
    | succ k ih =>
      intro n hn q sk m hm
      match n with
      | .file name ft cd mb =>
        rw [filterAndSortTree] at hm
        by_cases hq : containsSub (lowerList name) (lowerList q) = true
        · rw [if_pos hq] at hm
          rw [List.mem_singleton.mp hm]
          exact trivial
        · rw [if_neg hq] at hm
          cases hm
      | .folder name cd mb cs =>
        rw [filterAndSortTree] at hm
        set fc := filterChildren cs q sk with hfc
        set fo := (fc.filter isFolderNode).insertionSort (fun a b => treeLe sk a b = true)
          with hfo
        set fi := ((fc.filter (fun c => !isFolderNode c)).insertionSort
          (fun a b => treeLe sk a b = true)) with hfi
        by_cases hlen : (fo ++ fi).length > 0
        · rw [if_pos hlen] at hm
          rw [List.mem_singleton.mp hm]
          haveI : IsTotal Node (fun a b => treeLe sk a b = true) := ⟨treeLe_total sk⟩
          haveI : IsTrans Node (fun a b => treeLe sk a b = true) :=
            ⟨fun a b c => treeLe_trans sk a b c⟩
          refine ⟨?_, ?_, ?_⟩
          · intro hnil
            rw [hnil] at hlen
            exact absurd hlen (by simp)
          · refine ⟨fo, fi, rfl, ?_, ?_, ?_, ?_⟩
            · intro x hx
              rw [hfo] at hx
              exact (List.mem_filter.mp ((List.mem_insertionSort _).mp hx)).2
            · intro x hx
              rw [hfi] at hx
              have := (List.mem_filter.mp ((List.mem_insertionSort _).mp hx)).2
              simpa using this
            · exact List.sorted_insertionSort _ _
            · exact List.sorted_insertionSort _ _
          · rw [goodForest_iff]
            intro x hx
            have hxfc : x ∈ fc := by
              rcases List.mem_append.mp hx with hx | hx
              · exact (List.mem_filter.mp ((List.mem_insertionSort _).mp hx)).1
              · exact (List.mem_filter.mp ((List.mem_insertionSort _).mp hx)).1
            rcases mem_filterChildren hxfc with ⟨c, hc, hxc⟩
            have hsz : sizeOf c < sizeOf (Node.folder name cd mb cs) := by
              have h1 : sizeOf c < sizeOf cs := List.sizeOf_lt_of_mem hc
              simp only [Node.folder.sizeOf_spec]
              omega
            exact ih c (by omega) q sk x hxc
        · rw [if_neg hlen] at hm
          cases hm
  intro n q sk m hm
  exact main (sizeOf n + 1) n (Nat.lt_succ_self _) q sk m hm

/-- C7: tree search never returns a folder with zero children — a file
survives iff its name contains the query case-insensitively, a folder
survives iff some descendant survived and is then a copy holding exactly
the surviving children (as a permutation, regrouped) — and tree sort
places folders before files among every returned folder's children, with
each group sorted by the chosen key, recursively at every level. -/
theorem tree_search_sort_invariants :
    (∀ (n : Node) (q : Str) (sk : SortKey), ∀ m ∈ filterAndSortTree n q sk, GoodTree sk m) ∧
    (∀ (name : Str) (ft : Str) (cd : ℤ) (mb : Str) (q : Str) (sk : SortKey),
      filterAndSortTree (.file name ft cd mb) q sk =
        if containsSub (lowerList name) (lowerList q) then [.file name ft cd mb] else []) ∧
    (∀ (name : Str) (cd : ℤ) (mb : Str) (cs : List Node) (q : Str) (sk : SortKey),
      (filterAndSortTree (.folder name cd mb cs) q sk = [] ↔ filterChildren cs q sk = []) ∧
      ∀ m ∈ filterAndSortTree (.folder name cd mb cs) q sk,
        ∃ cs', m = .folder name cd mb cs' ∧ cs'.Perm (filterChildren cs q sk)) := by
  refine ⟨filterAndSortTree_good, fun _ _ _ _ _ _ => rfl, ?_⟩
  intro name cd mb cs q sk
  have hperm :
      ((filterChildren cs q sk).filter isFolderNode).insertionSort
          (fun a b => treeLe sk a b = true) ++
        ((filterChildren cs q sk).filter (fun c => !isFolderNode c)).insertionSort
          (fun a b => treeLe sk a b = true) |>.Perm (filterChildren cs q sk) := by
    refine List.Perm.trans (List.Perm.append (List.perm_insertionSort _ _)
      (List.perm_insertionSort _ _)) ?_
    exact List.filter_append_perm _ _
  constructor
  · rw [filterAndSortTree]
    by_cases hlen :
        (((filterChildren cs q sk).filter isFolderNode).insertionSort
            (fun a b => treeLe sk a b = true) ++
          ((filterChildren cs q sk).filter (fun c => !isFolderNode c)).insertionSort
            (fun a b => treeLe sk a b = true)).length > 0
    · rw [if_pos hlen]
      constructor
      · intro h
        cases h
      · intro h
        exfalso
        rw [h] at hlen
        simp [List.insertionSort] at hlen
    · rw [if_neg hlen]
      constructor
      · intro _
        have hle := hperm.length_eq
        exact List.length_eq_zero.mp (by omega)
      · intro _
        rfl
  · intro m hm
    rw [filterAndSortTree] at hm
    by_cases hlen :
        (((filterChildren cs q sk).filter isFolderNode).insertionSort
            (fun a b => treeLe sk a b = true) ++
          ((filterChildren cs q sk).filter (fun c => !isFolderNode c)).insertionSort
            (fun a b => treeLe sk a b = true)).length > 0
    · rw [if_pos hlen] at hm
      refine ⟨_, List.mem_singleton.mp hm, hperm⟩
    · rw [if_neg hlen] at hm
      cases hm

/-- C7 witness: a concrete mixed folder — the returned root holds folder
"m" before file "zz.csv", is `GoodTree`, and the file-node equation holds
at a concrete file. -/
theorem tree_search_sort_invariants_witness :
    GoodTree SortKey.name
        (Node.folder "r".data 0 "u".data
          [Node.folder "m".data 1 "u".data [Node.file "ab.pdf".data "pdf".data 2 "u".data],
           Node.file "zz.csv".data "csv".data 3 "u".data]) ∧
    filterAndSortTree (Node.file "ab.pdf".data "pdf".data 2 "u".data) "zz".data SortKey.name =
      [] :=
  ⟨by
    refine tree_search_sort_invariants.1
      (Node.folder "r".data 0 "u".data
        [Node.file "zz.csv".data "csv".data 3 "u".data,
         Node.folder "m".data 1 "u".data [Node.file "ab.pdf".data "pdf".data 2 "u".data]])
      [] SortKey.name _ ?_
    rw [show filterAndSortTree
        (Node.folder "r".data 0 "u".data
          [Node.file "zz.csv".data "csv".data 3 "u".data,
           Node.folder "m".data 1 "u".data [Node.file "ab.pdf".data "pdf".data 2 "u".data]])
        [] SortKey.name =
      [Node.folder "r".data 0 "u".data
        [Node.folder "m".data 1 "u".data [Node.file "ab.pdf".data "pdf".data 2 "u".data],
         Node.file "zz.csv".data "csv".data 3 "u".data]] from rfl]
    exact List.mem_singleton.mpr rfl,
   by
    rw [tree_search_sort_invariants.2.1]
    rw [if_neg (by decide)]⟩

/-- Characters of a joined list come from the separator or from a part. -/
theorem mem_joinChar {c ch : Char} :
    ∀ {parts : List Str}, ch ∈ joinChar c parts → ch = c ∨ ∃ p ∈ parts, ch ∈ p := by
  intro parts
  induction parts with
  | nil => intro h; cases h
  | cons x xs ih =>
    cases xs with
    | nil =>
      intro h
      exact Or.inr ⟨x, List.mem_singleton.mpr rfl, h⟩
    | cons y ys =>
      intro h
      rcases List.mem_append.mp h with h | h
      · exact Or.inr ⟨x, List.mem_cons_self _ _, h⟩
      · rcases List.mem_cons.mp h with h | h
        · exact Or.inl h
        · rcases ih h with h | ⟨p, hp, hchp⟩
          · exact Or.inl h
          · exact Or.inr ⟨p, List.mem_cons_of_mem _ hp, hchp⟩

/-- A character of a part occurs in the joined list. -/
theorem mem_joinChar_of_mem {c ch : Char} {p : Str} :
    ∀ {parts : List Str}, p ∈ parts → ch ∈ p → ch ∈ joinChar c parts := by
  intro parts
  induction parts with
  | nil => intro h; cases h
  | cons x xs ih =>
    intro hp hch
    cases xs with
    | nil =>
      rw [List.mem_singleton.mp hp] at hch
      exact hch
    | cons y ys =>
      rcases List.mem_cons.mp hp with hp | hp
      · subst hp
        exact List.mem_append.mpr (Or.inl hch)
      · exact List.mem_append.mpr (Or.inr (List.mem_cons_of_mem _ (ih hp hch)))

/-- Splitting a separator-free string yields the string itself. -/
theorem splitOnChar_single {c : Char} : ∀ {x : Str}, c ∉ x → splitOnCharList c x = [x] := by
  intro x
  induction x with
  | nil => intro _; rfl
  | cons a as ih =>
    intro h
    have ha : a ≠ c := fun hac => h (hac ▸ List.mem_cons_self a as)
    have has : c ∉ as := fun hc => h (List.mem_cons_of_mem a hc)
    rw [splitOnCharList]
    simp only [ih has, if_neg ha]
    rfl

/-- Splitting distributes over the first separator. -/
theorem splitOnChar_append {c : Char} :
    ∀ {x : Str} (rest : Str), c ∉ x →
      splitOnCharList c (x ++ c :: rest) = x :: splitOnCharList c rest := by
  intro x
  induction x with
  | nil =>
    intro rest _
    rw [List.nil_append, splitOnCharList, if_pos rfl]
  | cons a as ih =>
    intro rest h
    have ha : a ≠ c := fun hac => h (hac ▸ List.mem_cons_self a as)
    have has : c ∉ as := fun hc => h (List.mem_cons_of_mem a hc)
    rw [List.cons_append, splitOnCharList]
    simp only [ih rest has, if_neg ha]
    rfl

/-- Splitting a separator-joined list of separator-free parts recovers the
parts. -/
theorem splitOnChar_joinChar {c : Char} :
    ∀ {parts : List Str}, parts ≠ [] → (∀ p ∈ parts, c ∉ p) →
      splitOnCharList c (joinChar c parts) = parts := by
  intro parts
  induction parts with
  | nil => intro h; exact absurd rfl h
  | cons x xs ih =>
    intro _ hfree
    cases xs with
    | nil => exact splitOnChar_single (hfree x (List.mem_singleton.mpr rfl))
    | cons y ys =>
      rw [joinChar, splitOnChar_append _ (hfree x (List.mem_cons_self _ _))]
      rw [ih (by simp) (fun p hp => hfree p (List.mem_cons_of_mem _ hp))]

/-- Characters of an escaped string are quotes or original characters. -/
theorem mem_escapeQuotes {s : Str} {ch : Char} (h : ch ∈ escapeQuotes s) :
    ch = '"' ∨ ch ∈ s := by
  rcases List.mem_flatMap.mp h with ⟨a, ha, hch⟩
  by_cases hq : a = '"'
  · rw [hq] at hch
    simp only [if_pos rfl] at hch
    rcases List.mem_cons.mp hch with h1 | h1
    · exact Or.inl h1
    · exact Or.inl (List.mem_singleton.mp h1)
  · rw [if_neg hq] at hch
    rw [List.mem_singleton.mp hch]
    exact Or.inr ha

/-- A string holding some non-whitespace character does not trim to the
empty string. -/
theorem trimList_isEmpty_false {l : Str} {ch : Char} (hch : ch ∈ l)
    (hw : ch.isWhitespace = false) : (trimList l).isEmpty = false := by
  rcases htr : trimList l with _ | ⟨a, t⟩
  · exfalso
    rw [trimList_eq] at htr
    have hall := List.rdropWhile_eq_nil_iff.mp htr
    have hmem : ch ∈ List.takeWhile Char.isWhitespace l ++
        List.dropWhile Char.isWhitespace l := by
      rw [List.takeWhile_append_dropWhile]
      exact hch
    rcases List.mem_append.mp hmem with h | h
    · rw [List.mem_takeWhile_imp h] at hw
      cases hw
    · rw [hall ch h] at hw
      cases hw
  · rfl

/-- The first character of a nonempty trimmed string is not whitespace. -/
theorem trimmed_head_not_ws {s : Str} {c : Char} {rest : Str} (ht : trimList s = s)
    (hs : s = c :: rest) : c.isWhitespace = false := by
  have hd : List.dropWhile Char.isWhitespace s = s := by
    have := dropWhile_trimList s
    rwa [ht] at this
  subst hs
  by_cases hw : c.isWhitespace
  · rw [List.dropWhile_cons, if_pos hw] at hd
    have hsub : (List.dropWhile Char.isWhitespace rest).length ≤ rest.length :=
      (List.dropWhile_sublist _).length_le
    rw [hd] at hsub
    simp at hsub
  · simpa using hw

/-- When `dropWhile isDigit` consumes everything, all characters are
digits. -/
theorem all_digits_of_dropWhile_eq_nil {r : Str}
    (hd : r.dropWhile Char.isDigit = []) : ∀ c ∈ r, c.isDigit = true := by
  intro c hc
  have hmem : c ∈ r.takeWhile Char.isDigit ++ r.dropWhile Char.isDigit := by
    rw [List.takeWhile_append_dropWhile]
    exact hc
  rcases List.mem_append.mp hmem with h | h
  · exact List.mem_takeWhile_imp h
  · rw [hd] at h
    cases h

/-- Case analysis for the fractional-part splitter. -/
theorem splitFrac_cases (s2 : Str) :
    (∃ r, s2 = '.' :: r ∧
      splitFrac s2 = (r.takeWhile Char.isDigit, r.dropWhile Char.isDigit)) ∨
    splitFrac s2 = ([], s2) := by
  rcases s2 with _ | ⟨c, r⟩
  · exact Or.inr rfl
  · by_cases hc : c = '.'
    · subst hc
      exact Or.inl ⟨r, rfl, rfl⟩
    · right
      rw [splitFrac.eq_def]
      split <;> simp_all

/-- Case analysis for the sign splitter. -/
theorem parseSign_cases (s : Str) :
    s = (parseSign s).2 ∨ ∃ c, (c = '+' ∨ c = '-') ∧ s = c :: (parseSign s).2 := by
  rcases s with _ | ⟨c, r⟩
  · exact Or.inl rfl
  · by_cases hp : c = '+'
    · subst hp
      exact Or.inr ⟨'+', Or.inl rfl, rfl⟩
    · by_cases hm : c = '-'
      · subst hm
        exact Or.inr ⟨'-', Or.inr rfl, rfl⟩
      · left
        rw [parseSign.eq_def]
        split <;> simp_all

/-- Case analysis for the exponent-sign splitter. -/
theorem splitExpSign_cases (r : Str) :
    r = (splitExpSign r).2 ∨ ∃ c, (c = '+' ∨ c = '-') ∧ r = c :: (splitExpSign r).2 := by
  rcases r with _ | ⟨c, rr⟩
  · exact Or.inl rfl
  · by_cases hp : c = '+'
    · subst hp
      exact Or.inr ⟨'+', Or.inl rfl, rfl⟩
    · by_cases hm : c = '-'
      · subst hm
        exact Or.inr ⟨'-', Or.inr rfl, rfl⟩
      · left
        rw [splitExpSign.eq_def]
        split <;> simp_all

/-- A parsed exponent consists of sign and digit characters only. -/
theorem parseExp_chars {r : Str} {k : ℤ} (h : parseExp r = some k) :
    ∀ c ∈ r, c = '+' ∨ c = '-' ∨ c.isDigit = true := by
  dsimp only [parseExp] at h
  by_cases hg : (splitExpSign r).2.takeWhile Char.isDigit ≠ [] ∧
      (splitExpSign r).2.dropWhile Char.isDigit = []
  · have hdig := all_digits_of_dropWhile_eq_nil hg.2
    intro c hc
    rcases splitExpSign_cases r with hr | ⟨c0, hc0, hr⟩
    · exact Or.inr (Or.inr (hdig c (hr ▸ hc)))
    · rw [hr] at hc
      rcases List.mem_cons.mp hc with hc | hc
      · subst hc
        rcases hc0 with h0 | h0
        · exact Or.inl h0
        · exact Or.inr (Or.inl h0)
      · exact Or.inr (Or.inr (hdig c hc))
  · rw [if_neg hg] at h
    cases h

/-- A parsed mantissa consists of digit and dot characters, followed by the
unconsumed remainder. -/
theorem parseMantissa_chars {s1 : Str} {m : Dec} {s3 : Str}
    (h : parseMantissa s1 = some (m, s3)) :
    ∃ pre, s1 = pre ++ s3 ∧ ∀ c ∈ pre, c = '.' ∨ c.isDigit = true := by
  dsimp only [parseMantissa] at h
  by_cases hg : s1.takeWhile Char.isDigit = [] ∧ (splitFrac (s1.dropWhile Char.isDigit)).1 = []
  · rw [if_pos hg] at h
    cases h
  · rw [if_neg hg] at h
    have hs3 : s3 = (splitFrac (s1.dropWhile Char.isDigit)).2 := by
      injection h with h'
      exact (congrArg Prod.snd h').symm
    rcases splitFrac_cases (s1.dropWhile Char.isDigit) with ⟨r, hr, hsf⟩ | hsf
    · refine ⟨s1.takeWhile Char.isDigit ++ '.' :: r.takeWhile Char.isDigit, ?_, ?_⟩
      · rw [hs3, hsf]
        conv_lhs => rw [← List.takeWhile_append_dropWhile Char.isDigit s1, hr]
        simp [List.append_assoc, List.takeWhile_append_dropWhile]
      · intro c hc
        rcases List.mem_append.mp hc with hc | hc
        · exact Or.inr (List.mem_takeWhile_imp hc)
        · rcases List.mem_cons.mp hc with hc | hc
          · exact Or.inl hc
          · exact Or.inr (List.mem_takeWhile_imp hc)
    · refine ⟨s1.takeWhile Char.isDigit, ?_, ?_⟩
      · rw [hs3, hsf]
        exact (List.takeWhile_append_dropWhile Char.isDigit s1).symm
      · intro c hc
        exact Or.inr (List.mem_takeWhile_imp hc)

/-- A string accepted by the numeric conversion consists of sign, dot,
exponent-marker and digit characters only. -/
theorem parseDecimal_chars {s : Str} {d : Dec} (h : parseDecimal s = some d) :
    ∀ c ∈ s, c = '+' ∨ c = '-' ∨ c = '.' ∨ c = 'e' ∨ c = 'E' ∨ c.isDigit = true := by
  dsimp only [parseDecimal] at h
  rcases hm : parseMantissa (parseSign s).2 with _ | ⟨m, s3⟩
  · rw [hm] at h
    cases h
  · rw [hm] at h
    dsimp only at h
    obtain ⟨pre, hpre, hprechar⟩ := parseMantissa_chars hm
    have hbody : ∀ c ∈ (parseSign s).2,
        c = '+' ∨ c = '-' ∨ c = '.' ∨ c = 'e' ∨ c = 'E' ∨ c.isDigit = true := by
      rcases s3 with _ | ⟨e, r⟩
      · intro c hc
        rw [hpre, List.append_nil] at hc
        rcases hprechar c hc with h' | h'
        · exact Or.inr (Or.inr (Or.inl h'))
        · exact Or.inr (Or.inr (Or.inr (Or.inr (Or.inr h'))))
      · dsimp only at h
        by_cases he : e = 'e' ∨ e = 'E'
        · rw [if_pos he] at h
          rcases hk : parseExp r with _ | k
          · rw [hk] at h
            cases h
          · have hrchars := parseExp_chars hk
            intro c hc
            rw [hpre] at hc
            rcases List.mem_append.mp hc with hc | hc
            · rcases hprechar c hc with h' | h'
              · exact Or.inr (Or.inr (Or.inl h'))
              · exact Or.inr (Or.inr (Or.inr (Or.inr (Or.inr h'))))
            · rcases List.mem_cons.mp hc with hc | hc
              · subst hc
                rcases he with h' | h'
                · exact Or.inr (Or.inr (Or.inr (Or.inl h')))
                · exact Or.inr (Or.inr (Or.inr (Or.inr (Or.inl h'))))
              · rcases hrchars c hc with h' | h' | h'
                · exact Or.inl h'
                · exact Or.inr (Or.inl h')
                · exact Or.inr (Or.inr (Or.inr (Or.inr (Or.inr h'))))
        · rw [if_neg he] at h
          cases h
    intro c hc
    rcases parseSign_cases s with hs | ⟨c0, hc0, hs⟩
    · exact hbody c (hs ▸ hc)
    · rw [hs] at hc
      rcases List.mem_cons.mp hc with hc | hc
      · subst hc
        rcases hc0 with h' | h'
        · exact Or.inl h'
        · exact Or.inr (Or.inl h')
      · exact hbody c hc

/-- Numeric-literal characters are not delimiters, quotes, line breaks or
whitespace. -/
theorem numChar_props {c : Char}
    (h : c = '+' ∨ c = '-' ∨ c = '.' ∨ c = 'e' ∨ c = 'E' ∨ c.isDigit = true) :
    c ≠ ',' ∧ c ≠ '"' ∧ c ≠ '\n' ∧ c.isWhitespace = false := by
  rcases h with rfl | rfl | rfl | rfl | rfl | hd
  · exact ⟨by decide, by decide, by decide, by decide⟩
  · exact ⟨by decide, by decide, by decide, by decide⟩
  · exact ⟨by decide, by decide, by decide, by decide⟩
  · exact ⟨by decide, by decide, by decide, by decide⟩
  · exact ⟨by decide, by decide, by decide, by decide⟩
  · refine ⟨?_, ?_, ?_, ?_⟩
    · rintro rfl
      exact absurd hd (by decide)
    · rintro rfl
      exact absurd hd (by decide)
    · rintro rfl
      exact absurd hd (by decide)
    · by_cases h1 : c = ' '
      · subst h1
        exact absurd hd (by decide)
      · by_cases h2 : c = '\t'
        · subst h2
          exact absurd hd (by decide)
        · by_cases h3 : c = '\r'
          · subst h3
            exact absurd hd (by decide)
          · by_cases h4 : c = '\n'
            · subst h4
              exact absurd hd (by decide)
            · simp [Char.isWhitespace, h1, h2, h3, h4]

/-- Stripping outer quotes does nothing to a string not starting with a
quote. -/
theorem stripOuterQuotes_of_head_ne {s : Str} (h : s.head? ≠ some '"') :
    stripOuterQuotes s = s := by
  rcases s with _ | ⟨c, r⟩
  · rfl
  · have hc : c ≠ '"' := by simpa using h
    rw [stripOuterQuotes.eq_def]
    split <;> simp_all

/-- A numeric-literal string is nonempty, trimmed, free of delimiters,
quotes and line breaks, and untouched by quote stripping. -/
theorem parseDecimal_props {s : Str} {d : Dec} (h : parseDecimal s = some d) :
    s ≠ [] ∧ trimList s = s ∧ s.contains ',' = false ∧ s.contains '"' = false ∧
      s.contains '\n' = false ∧ stripOuterQuotes s = s := by
  have hchars := parseDecimal_chars h
  have hnws : ∀ c ∈ s, c.isWhitespace = false := fun c hc =>
    (numChar_props (hchars c hc)).2.2.2
  have hne : s ≠ [] := by
    rintro rfl
    cases h
  have hnc : ',' ∉ s := fun hmem => (numChar_props (hchars ',' hmem)).1 rfl
  have hnq : '"' ∉ s := fun hmem => (numChar_props (hchars '"' hmem)).2.1 rfl
  have hnn : '\n' ∉ s := fun hmem => (numChar_props (hchars '\n' hmem)).2.2.1 rfl
  refine ⟨hne, ?_, by simpa using hnc, by simpa using hnq, by simpa using hnn, ?_⟩
  · have hdw : List.dropWhile Char.isWhitespace s = s := by
      apply List.dropWhile_eq_self_iff.mpr
      intro hl
      rw [hnws (s.get ⟨0, hl⟩) (List.get_mem s 0 hl)]
      simp
    rw [trimList_eq, hdw]
    apply List.rdropWhile_eq_self_iff.mpr
    intro hl
    rw [hnws (s.getLast hl) (s.getLast_mem hl)]
    simp
  · apply stripOuterQuotes_of_head_ne
    rcases s with _ | ⟨c, r⟩
    · simp
    · have : c ≠ '"' := fun hc => hnq (hc ▸ List.mem_cons_self c r)
      simpa using this

/-- A well-formed exportable value: a stored number that is non-zero, or a
stored string that is trimmed, line-break-free, non-numeric and untouched
by quote stripping. -/
def wfExportValue : Value → Bool
  | .num s =>
    match parseDecimal s with
    | some d => decide (d.1 ≠ 0)
    | none => false
  | .str s =>
    (trimList s == s) && !(s.contains '\n') && (parseDecimal s).isNone &&
      (stripOuterQuotes s == s)

/-- Unpacking `wfExportValue` for numbers. -/
theorem wfExportValue_num {s : Str} (h : wfExportValue (.num s) = true) :
    ∃ d, parseDecimal s = some d ∧ d.1 ≠ 0 := by
  rcases hp : parseDecimal s with _ | d
  · rw [wfExportValue, hp] at h
    cases h
  · rw [wfExportValue, hp] at h
    exact ⟨d, rfl, of_decide_eq_true h⟩

/-- Unpacking `wfExportValue` for strings. -/
theorem wfExportValue_str {s : Str} (h : wfExportValue (.str s) = true) :
    trimList s = s ∧ s.contains '\n' = false ∧ parseDecimal s = none ∧
      stripOuterQuotes s = s := by
  rw [wfExportValue] at h
  simp only [Bool.and_eq_true, beq_iff_eq, Bool.not_eq_true', Option.isNone_iff_eq_none] at h
  exact ⟨h.1.1.1, h.1.1.2, h.1.2, h.2⟩

/-- `String(x || '')` of a stored non-zero number is its literal text. -/
theorem stringOrEmpty_num {s : Str} {d : Dec} (hp : parseDecimal s = some d)
    (hz : d.1 ≠ 0) : stringOrEmpty (some (.num s)) = s := by
  have hfal : isFalsyValue (.num s) = false := by
    rw [isFalsyValue, hp]
    simpa using hz
  rw [stringOrEmpty, hfal]
  rfl

/-- `String(x || '')` of a stored string is the string itself (also when
empty). -/
theorem stringOrEmpty_str (s : Str) : stringOrEmpty (some (.str s)) = s := by
  rcases s with _ | ⟨c, r⟩ <;> rfl

/-- Unquoted serialization for values free of special characters. -/
theorem serializeValue_unquoted {v : Option Value}
    (h1 : (stringOrEmpty v).contains ',' = false)
    (h2 : (stringOrEmpty v).contains '"' = false)
    (h3 : (stringOrEmpty v).contains '\n' = false) :
    serializeValue v = stringOrEmpty v := by
  have hcond : ((stringOrEmpty v).contains ',' || (stringOrEmpty v).contains '"' ||
      (stringOrEmpty v).contains '\n') = false := by
    rw [h1, h2, h3]
    rfl
  simp only [serializeValue]
  rw [hcond]
  simp

/-- Quoted serialization when a special character is present. -/
theorem serializeValue_quoted {v : Option Value}
    (h : ',' ∈ stringOrEmpty v ∨ '"' ∈ stringOrEmpty v ∨ '\n' ∈ stringOrEmpty v) :
    serializeValue v = '"' :: (escapeQuotes (stringOrEmpty v) ++ ['"']) := by
  have hcond : ((stringOrEmpty v).contains ',' || (stringOrEmpty v).contains '"' ||
      (stringOrEmpty v).contains '\n') = true := by
    rcases h with h | h | h <;> simp [h]
  simp only [serializeValue]
  rw [hcond]
  simp

/-- Scanning a special-character-free field accumulates it verbatim. -/
theorem scan_raw : ∀ (x : Str), (∀ c ∈ x, c ≠ '"' ∧ c ≠ ',') → ∀ (rest cur : Str),
    parseCsvLineAux (x ++ rest) false cur = parseCsvLineAux rest false (cur ++ x) := by
  intro x
  induction x with
  | nil =>
    intro _ rest cur
    simp
  | cons c x' ih =>
    intro h rest cur
    have hc := h c (List.mem_cons_self c x')
    rw [List.cons_append,
      parseCsvLineAux_other c (x' ++ rest) false cur hc.1 (fun hk => hc.2 hk.1),
      ih (fun c' hc' => h c' (List.mem_cons_of_mem c hc')) rest (cur ++ [c])]
    rw [List.append_assoc]
    rfl

/-- Scanning an escaped body inside quotes accumulates the original text and
leaves the quoted state at the closing quote. -/
theorem scan_esc : ∀ (s rest cur : Str), rest.head? ≠ some '"' →
    parseCsvLineAux (escapeQuotes s ++ '"' :: rest) true cur =
      parseCsvLineAux rest false (cur ++ s) := by
  intro s
  induction s with
  | nil =>
    intro rest cur hrest
    rw [show escapeQuotes [] = [] from rfl, List.nil_append,
      parseCsvLineAux_toggle rest true cur (fun hk => hrest hk.2)]
    simp
  | cons c s' ih =>
    intro rest cur hrest
    by_cases hc : c = '"'
    · subst hc
      rw [show escapeQuotes ('"' :: s') = '"' :: '"' :: escapeQuotes s' from rfl]
      rw [List.cons_append, List.cons_append, parseCsvLineAux_escaped,
        ih rest (cur ++ ['"']) hrest]
      rw [List.append_assoc]
      rfl
    · rw [show escapeQuotes (c :: s') = c :: escapeQuotes s' from by
        rw [escapeQuotes, List.flatMap_cons, if_neg hc]; rfl]
      rw [List.cons_append, parseCsvLineAux_other c _ true cur hc (by simp),
        ih rest (cur ++ [c]) hrest]
      rw [List.append_assoc]
      rfl

/-- The serialization of a well-formed value equals its text when no special
character occurs, and is the quote-escaped form otherwise; in both cases
its scan recovers the text. -/
theorem serialize_num_eq {s : Str} {d : Dec} (hp : parseDecimal s = some d)
    (hz : d.1 ≠ 0) : serializeValue (some (.num s)) = s := by
  obtain ⟨_, _, hc1, hc2, hc3, _⟩ := parseDecimal_props hp
  have hse := stringOrEmpty_num hp hz
  refine (serializeValue_unquoted ?_ ?_ ?_).trans hse <;> rw [hse]
  · exact hc1
  · exact hc2
  · exact hc3

/-- Scanning a serialized well-formed value followed by a comma yields the
value's text and continues after the comma. -/
theorem scan_field_comma (v : Value) (hwf : wfExportValue v = true) (rest' : Str) :
    parseCsvLineAux (serializeValue (some v) ++ ',' :: rest') false [] =
      stringOfValue v :: parseCsvLineAux rest' false [] := by
  rcases v with s | s
  · obtain ⟨d, hp, hz⟩ := wfExportValue_num hwf
    obtain ⟨_, htrim, _, _, _, _⟩ := parseDecimal_props hp
    rw [serialize_num_eq hp hz]
    have hchars : ∀ c ∈ s, c ≠ '"' ∧ c ≠ ',' := by
      intro c hc
      have hn := numChar_props (parseDecimal_chars hp c hc)
      exact ⟨hn.2.1, hn.1⟩
    rw [scan_raw s hchars (',' :: rest') [], List.nil_append,
      parseCsvLineAux_comma_out, htrim]
    rfl
  · obtain ⟨htrim, hnl, hnum, hstrip⟩ := wfExportValue_str hwf
    have hse := stringOrEmpty_str s
    by_cases hq : (s.contains ',' || s.contains '"') = true
    · rw [serializeValue_quoted (by
        rw [hse]
        rcases Bool.or_eq_true_iff.mp hq with h | h
        · exact Or.inl (by simpa using h)
        · exact Or.inr (Or.inl (by simpa using h))), hse]
      rw [List.cons_append, List.append_assoc, List.singleton_append,
        parseCsvLineAux_toggle _ false [] (by simp)]
      rw [show (!false) = true from rfl,
        scan_esc s (',' :: rest') [] (by simp), List.nil_append,
        parseCsvLineAux_comma_out, htrim]
      rfl
    · have hq2 : (s.contains ',' || s.contains '"') = false := by
        cases h' : (s.contains ',' || s.contains '"')
        · rfl
        · exact absurd h' hq
      have hq' := Bool.or_eq_false_iff.mp hq2
      rw [serializeValue_unquoted (by rw [hse]; exact hq'.1) (by rw [hse]; exact hq'.2)
        (by rw [hse]; exact hnl), hse]
      have hninc : ',' ∉ s := by simpa using hq'.1
      have hninq : '"' ∉ s := by simpa using hq'.2
      have hchars : ∀ c ∈ s, c ≠ '"' ∧ c ≠ ',' :=
        fun c hc => ⟨fun h => hninq (h ▸ hc), fun h => hninc (h ▸ hc)⟩
      rw [scan_raw s hchars (',' :: rest') [], List.nil_append,
        parseCsvLineAux_comma_out, htrim]
      rfl

/-- Scanning a serialized well-formed value at end of line yields exactly the
value's text. -/
theorem scan_field_end (v : Value) (hwf : wfExportValue v = true) :
    parseCsvLineAux (serializeValue (some v)) false [] = [stringOfValue v] := by
  rcases v with s | s
  · obtain ⟨d, hp, hz⟩ := wfExportValue_num hwf
    obtain ⟨_, htrim, _, _, _, _⟩ := parseDecimal_props hp
    rw [serialize_num_eq hp hz]
    have hchars : ∀ c ∈ s, c ≠ '"' ∧ c ≠ ',' := by
      intro c hc
      have hn := numChar_props (parseDecimal_chars hp c hc)
      exact ⟨hn.2.1, hn.1⟩
    rw [show s = s ++ ([] : Str) from (List.append_nil s).symm, scan_raw s hchars [] [],
      parseCsvLineAux_nil, List.nil_append, List.append_nil, htrim]
    rfl
  · obtain ⟨htrim, hnl, hnum, hstrip⟩ := wfExportValue_str hwf
    have hse := stringOrEmpty_str s
    by_cases hq : (s.contains ',' || s.contains '"') = true
    · rw [serializeValue_quoted (by
        rw [hse]
        rcases Bool.or_eq_true_iff.mp hq with h | h
        · exact Or.inl (by simpa using h)
        · exact Or.inr (Or.inl (by simpa using h))), hse]
      rw [show ('"' :: (escapeQuotes s ++ ['"']) : Str) =
        '"' :: (escapeQuotes s ++ '"' :: []) from rfl,
        parseCsvLineAux_toggle _ false [] (by simp)]
      rw [show (!false) = true from rfl, scan_esc s [] [] (by simp), List.nil_append,
        parseCsvLineAux_nil, htrim]
      rfl
    · have hq2 : (s.contains ',' || s.contains '"') = false := by
        cases h' : (s.contains ',' || s.contains '"')
        · rfl
        · exact absurd h' hq
      have hq' := Bool.or_eq_false_iff.mp hq2
      rw [serializeValue_unquoted (by rw [hse]; exact hq'.1) (by rw [hse]; exact hq'.2)
        (by rw [hse]; exact hnl), hse]
      have hninc : ',' ∉ s := by simpa using hq'.1
      have hninq : '"' ∉ s := by simpa using hq'.2
      have hchars : ∀ c ∈ s, c ≠ '"' ∧ c ≠ ',' :=
        fun c hc => ⟨fun h => hninq (h ▸ hc), fun h => hninc (h ▸ hc)⟩
      rw [show s = s ++ ([] : Str) from (List.append_nil s).symm, scan_raw s hchars [] [],
        parseCsvLineAux_nil, List.nil_append, List.append_nil, htrim]
      rfl

/-- Scanning a comma-joined list of serialized well-formed values recovers
all the value texts. -/
theorem scan_fields : ∀ (vs : List Value), vs ≠ [] → (∀ w ∈ vs, wfExportValue w = true) →
    parseCsvLine (joinChar ',' (vs.map (fun w => serializeValue (some w)))) =
      vs.map stringOfValue := by
  intro vs
  induction vs with
  | nil => intro h; exact absurd rfl h
  | cons v vs' ih =>
    intro _ hwf
    cases vs' with
    | nil =>
      rw [List.map_cons, List.map_nil,
        show joinChar ',' [serializeValue (some v)] = serializeValue (some v) from rfl,
        List.map_cons, List.map_nil]
      exact scan_field_end v (hwf v (List.mem_cons_self _ _))
    | cons v' vs'' =>
      rw [List.map_cons,
        show joinChar ',' (serializeValue (some v) ::
            (v' :: vs'').map (fun w => serializeValue (some w))) =
          serializeValue (some v) ++ ',' ::
            joinChar ',' ((v' :: vs'').map (fun w => serializeValue (some w))) from rfl,
        parseCsvLine,
        scan_field_comma v (hwf v (List.mem_cons_self _ _)) _, List.map_cons]
      exact congrArg (List.cons (stringOfValue v))
        (ih (by simp) (fun w hw => hwf w (List.mem_cons_of_mem v hw)))

/-- Scanning a comma-joined list of trimmed, special-character-free column
names recovers the names. -/
theorem scan_header : ∀ (cols : List Str), cols ≠ [] →
    (∀ c ∈ cols, trimList c = c ∧ c.contains ',' = false ∧ c.contains '"' = false) →
    parseCsvLine (joinChar ',' cols) = cols := by
  intro cols
  induction cols with
  | nil => intro h; exact absurd rfl h
  | cons c0 cols' ih =>
    intro _ hwf
    obtain ⟨htrim, hc, hq⟩ := hwf c0 (List.mem_cons_self _ _)
    have hninc : ',' ∉ c0 := by simpa using hc
    have hninq : '"' ∉ c0 := by simpa using hq
    have hchars : ∀ ch ∈ c0, ch ≠ '"' ∧ ch ≠ ',' :=
      fun ch hch => ⟨fun h => hninq (h ▸ hch), fun h => hninc (h ▸ hch)⟩
    cases cols' with
    | nil =>
      rw [show joinChar ',' [c0] = c0 from rfl, parseCsvLine,
        show c0 = c0 ++ ([] : Str) from (List.append_nil c0).symm,
        scan_raw c0 hchars [] [], parseCsvLineAux_nil, List.nil_append,
        List.append_nil, htrim]
    | cons c1 cols'' =>
      rw [show joinChar ',' (c0 :: c1 :: cols'') =
          c0 ++ ',' :: joinChar ',' (c1 :: cols'') from rfl,
        parseCsvLine, scan_raw c0 hchars _ [], List.nil_append,
        parseCsvLineAux_comma_out, htrim]
      exact congrArg (List.cons c0)
        (ih (by simp) (fun c hc' => hwf c (List.mem_cons_of_mem c0 hc')))

/-- Re-coercing the text of a well-formed value recovers the value. -/
theorem mkValue_roundtrip {v : Value} (hwf : wfExportValue v = true) :
    mkValue (stringOfValue v) = v := by
  rcases v with s | s
  · obtain ⟨d, hp, _⟩ := wfExportValue_num hwf
    obtain ⟨_, htrim, _, _, _, hstrip⟩ := parseDecimal_props hp
    rw [show stringOfValue (Value.num s) = s from rfl, mkValue]
    rw [hstrip, htrim, hp]
  · obtain ⟨htrim, _, hnum, hstrip⟩ := wfExportValue_str hwf
    rw [show stringOfValue (Value.str s) = s from rfl, mkValue]
    rw [hstrip, htrim, hnum]

/-- A row is the zip of its keys and values. -/
theorem zip_keys_values : ∀ r : Row, (rowKeys r).zip (rowValues r) = r := by
  intro r
  induction r with
  | nil => rfl
  | cons p rest ih =>
    rw [rowKeys, rowValues, List.map_cons, List.map_cons, List.zip_cons_cons]
    rw [rowKeys, rowValues] at ih
    rw [ih]

/-- Keys of a zipped row. -/
theorem rowKeys_zip {cols : List Str} {vs : List Value} (h : vs.length = cols.length) :
    rowKeys (cols.zip vs) = cols :=
  List.map_fst_zip cols vs (le_of_eq h.symm)

/-- Values of a zipped row. -/
theorem rowValues_zip {cols : List Str} {vs : List Value} (h : vs.length = cols.length) :
    rowValues (cols.zip vs) = vs :=
  List.map_snd_zip cols vs (le_of_eq h)

/-- Property read on a zipped row: the head key yields the head value. -/
theorem rowGet_zip_head (c : Str) (v : Value) (rest : Row) :
    rowGet ((c, v) :: rest) c = some v := by
  rw [rowGet, List.find?_cons_of_pos]
  · rfl
  · simp

/-- Property read skips a head entry with a different key. -/
theorem rowGet_cons_ne {c c' : Str} (h : c ≠ c') (v : Value) (rest : Row) :
    rowGet ((c, v) :: rest) c' = rowGet rest c' := by
  rw [rowGet, List.find?_cons_of_neg, rowGet]
  simpa using h

/-- Reading every column off a zipped row serializes the zipped values in
order. -/
theorem map_rowGet_zip : ∀ (cols : List Str) (vs : List Value), cols.Nodup →
    vs.length = cols.length →
    cols.map (fun c => serializeValue (rowGet (cols.zip vs) c)) =
      vs.map (fun v => serializeValue (some v)) := by
  intro cols
  induction cols with
  | nil =>
    intro vs _ hlen
    rw [List.length_nil, List.length_eq_zero] at hlen
    rw [hlen]
    rfl
  | cons c cols' ih =>
    intro vs hnd hlen
    rcases vs with _ | ⟨v, vs'⟩
    · cases hlen
    · rw [List.zip_cons_cons, List.map_cons, List.map_cons, rowGet_zip_head]
      have hnotmem : c ∉ cols' := (List.nodup_cons.mp hnd).1
      have htail : cols'.map (fun c' => serializeValue (rowGet ((c, v) :: cols'.zip vs') c')) =
          cols'.map (fun c' => serializeValue (rowGet (cols'.zip vs') c')) := by
        apply List.map_congr_left
        intro c' hc'
        rw [rowGet_cons_ne (fun h => hnotmem (by rw [h]; exact hc')) v]
      rw [htail, ih vs' (List.nodup_cons.mp hnd).2 (by simpa using hlen)]

/-- Appending a fresh key is a plain append. -/
theorem objInsert_not_mem {row : Row} {k : Str} {v : Value}
    (h : row.any (fun p => p.1 == k) = false) : objInsert row k v = row ++ [(k, v)] := by
  rw [objInsert, if_neg]
  simp [h]

/-- The row-construction fold over fresh, distinct keys is a zip, offset by
an already-consumed field prefix. -/
theorem mkRow_general : ∀ (cols : List Str) (vs : List Value) (pre : List Str) (row : Row),
    cols.Nodup → (∀ c ∈ cols, row.any (fun p => p.1 == c) = false) →
    vs.length = cols.length → (∀ v ∈ vs, wfExportValue v = true) →
    (List.enumFrom pre.length cols).foldl
        (fun r p => objInsert r p.2 (mkValue ((pre ++ vs.map stringOfValue).getD p.1 []))) row =
      row ++ cols.zip vs := by
  intro cols
  induction cols with
  | nil =>
    intro vs pre row _ _ hlen _
    rw [List.length_nil, List.length_eq_zero] at hlen
    rw [hlen]
    simp [List.enumFrom]
  | cons c cols' ih =>
    intro vs pre row hnd hfresh hlen hwf
    rcases vs with _ | ⟨v, vs'⟩
    · cases hlen
    · rw [List.enumFrom_cons, List.foldl_cons]
      have hget : (pre ++ (v :: vs').map stringOfValue).getD pre.length [] =
          stringOfValue v := by
        rw [List.getD_append_right _ _ _ _ (Nat.le_refl _), Nat.sub_self]
        rfl
      rw [hget, mkValue_roundtrip (hwf v (List.mem_cons_self _ _)),
        objInsert_not_mem (hfresh c (List.mem_cons_self _ _))]
      have hsplit : pre ++ (v :: vs').map stringOfValue =
          (pre ++ [stringOfValue v]) ++ vs'.map stringOfValue := by
        simp
      rw [hsplit]
      have hlen' : (pre ++ [stringOfValue v]).length = pre.length + 1 := by
        simp
      rw [← hlen']
      have hfresh' : ∀ c' ∈ cols', (row ++ [(c, v)]).any (fun p => p.1 == c') = false := by
        intro c' hc'
        rw [List.any_append]
        have h1 := hfresh c' (List.mem_cons_of_mem c hc')
        have h2 : c ≠ c' := fun h => (List.nodup_cons.mp hnd).1 (h ▸ hc')
        simp [h1, h2]
      rw [ih vs' (pre ++ [stringOfValue v]) (row ++ [(c, v)]) (List.nodup_cons.mp hnd).2
        hfresh' (by simpa using hlen) (fun w hw => hwf w (List.mem_cons_of_mem v hw))]
      rw [List.zip_cons_cons, List.append_assoc]
      rfl

/-- Parsing the serialized fields of a well-formed value list under the
original distinct column names reconstructs the zipped row. -/
theorem mkRow_eq_zip (cols : List Str) (vs : List Value) (hnd : cols.Nodup)
    (hlen : vs.length = cols.length) (hwf : ∀ v ∈ vs, wfExportValue v = true) :
    mkRow cols (vs.map stringOfValue) = cols.zip vs := by
  have h := mkRow_general cols vs [] [] hnd (by intro c _; rfl) hlen hwf
  simp only [List.nil_append, List.length_nil] at h
  unfold mkRow
  rw [show (cols.enum : List (ℕ × Str)) = List.enumFrom 0 cols from rfl]
  exact h

/-- A well-formed exportable column name: trimmed, nonempty, free of
delimiters, quotes and line breaks. -/
def wfColumn (c : Str) : Bool :=
  (trimList c == c) && !c.isEmpty && !(c.contains ',') && !(c.contains '"') &&
    !(c.contains '\n')

/-- A well-formed exportable table: nonempty data, duplicate-free
well-formed column names, every row keyed exactly by the columns with
well-formed values and at least one non-empty value. -/
def wfTable (columns : List Str) (data : List Row) : Bool :=
  !data.isEmpty && decide columns.Nodup && columns.all wfColumn &&
    data.all (fun r => (rowKeys r == columns) && r.all (fun p => wfExportValue p.2) &&
      r.any (fun p => decide (p.2 ≠ Value.str [])))

/-- Unpacking `wfTable`. -/
theorem wfTable_iff (columns : List Str) (data : List Row) :
    wfTable columns data = true ↔
      data ≠ [] ∧ columns.Nodup ∧ (∀ c ∈ columns, wfColumn c = true) ∧
      ∀ r ∈ data, rowKeys r = columns ∧ (∀ p ∈ r, wfExportValue p.2 = true) ∧
        ∃ p ∈ r, p.2 ≠ Value.str [] := by
  rw [wfTable]
  simp only [Bool.and_eq_true, Bool.not_eq_true', List.isEmpty_eq_false_iff_exists_mem,
    decide_eq_true_eq, List.all_eq_true, List.any_eq_true, beq_iff_eq]
  constructor
  · rintro ⟨⟨⟨⟨x, hx⟩, hnd⟩, hcols⟩, hrows⟩
    refine ⟨List.ne_nil_of_mem hx, hnd, hcols, ?_⟩
    intro r hr
    obtain ⟨⟨hk, hv⟩, p, hp, hne⟩ := hrows r hr
    exact ⟨hk, hv, p, hp, hne⟩
  · rintro ⟨hne, hnd, hcols, hrows⟩
    rcases data with _ | ⟨r0, rest⟩
    · exact absurd rfl hne
    · refine ⟨⟨⟨⟨r0, List.mem_cons_self _ _⟩, hnd⟩, hcols⟩, ?_⟩
      intro r hr
      obtain ⟨hk, hv, p, hp, hne'⟩ := hrows r hr
      exact ⟨⟨hk, hv⟩, p, hp, hne'⟩

/-- Unpacking `wfColumn`. -/
theorem wfColumn_props {c : Str} (h : wfColumn c = true) :
    trimList c = c ∧ c ≠ [] ∧ c.contains ',' = false ∧ c.contains '"' = false ∧
      c.contains '\n' = false := by
  rw [wfColumn] at h
  simp only [Bool.and_eq_true, beq_iff_eq, Bool.not_eq_true',
    List.isEmpty_eq_false_iff_exists_mem] at h
  obtain ⟨⟨⟨⟨h1, ⟨x, hx⟩⟩, h2⟩, h3⟩, h4⟩ := h
  exact ⟨h1, List.ne_nil_of_mem hx, h2, h3, h4⟩

/-- The serialization of a well-formed value contains no line break. -/
theorem newline_not_mem_serialize {v : Value} (hwf : wfExportValue v = true) :
    '\n' ∉ serializeValue (some v) := by
  rcases v with s | s
  · obtain ⟨d, hp, hz⟩ := wfExportValue_num hwf
    obtain ⟨_, _, _, _, hc3, _⟩ := parseDecimal_props hp
    rw [serialize_num_eq hp hz]
    simpa using hc3
  · obtain ⟨htrim, hnl, hnum, hstrip⟩ := wfExportValue_str hwf
    have hse := stringOrEmpty_str s
    have hnin : '\n' ∉ s := by simpa using hnl
    by_cases hq : (s.contains ',' || s.contains '"') = true
    · rw [serializeValue_quoted (by
        rw [hse]
        rcases Bool.or_eq_true_iff.mp hq with h | h
        · exact Or.inl (by simpa using h)
        · exact Or.inr (Or.inl (by simpa using h))), hse]
      intro hmem
      rcases List.mem_cons.mp hmem with h | h
      · cases h
      · rcases List.mem_append.mp h with h | h
        · rcases mem_escapeQuotes h with h | h
          · cases h
          · exact hnin h
        · rcases List.mem_singleton.mp h
    · have hq2 : (s.contains ',' || s.contains '"') = false := by
        cases h' : (s.contains ',' || s.contains '"')
        · rfl
        · exact absurd h' hq
      have hq' := Bool.or_eq_false_iff.mp hq2
      rw [serializeValue_unquoted (by rw [hse]; exact hq'.1) (by rw [hse]; exact hq'.2)
        (by rw [hse]; exact hnl), hse]
      exact hnin

/-- The serialization of a well-formed, non-empty value contains a
non-whitespace character. -/
theorem serialize_has_nonws {v : Value} (hwf : wfExportValue v = true)
    (hne : v ≠ Value.str []) :
    ∃ ch ∈ serializeValue (some v), ch.isWhitespace = false := by
  rcases v with s | s
  · obtain ⟨d, hp, hz⟩ := wfExportValue_num hwf
    obtain ⟨hsne, _, _, _, _, _⟩ := parseDecimal_props hp
    rw [serialize_num_eq hp hz]
    rcases s with _ | ⟨c, r⟩
    · exact absurd rfl hsne
    · exact ⟨c, List.mem_cons_self _ _,
        (numChar_props (parseDecimal_chars hp c (List.mem_cons_self _ _))).2.2.2⟩
  · obtain ⟨htrim, hnl, hnum, hstrip⟩ := wfExportValue_str hwf
    have hse := stringOrEmpty_str s
    have hsne : s ≠ [] := fun h0 => hne (by rw [h0])
    obtain ⟨c, r, hs⟩ := List.exists_cons_of_ne_nil hsne
    by_cases hq : (s.contains ',' || s.contains '"') = true
    · rw [serializeValue_quoted (by
        rw [hse]
        rcases Bool.or_eq_true_iff.mp hq with h | h
        · exact Or.inl (by simpa using h)
        · exact Or.inr (Or.inl (by simpa using h)))]
      exact ⟨'"', List.mem_cons_self _ _, by decide⟩
    · have hq2 : (s.contains ',' || s.contains '"') = false := by
        cases h' : (s.contains ',' || s.contains '"')
        · rfl
        · exact absurd h' hq
      have hq' := Bool.or_eq_false_iff.mp hq2
      rw [serializeValue_unquoted (by rw [hse]; exact hq'.1) (by rw [hse]; exact hq'.2)
        (by rw [hse]; exact hnl), hse]
      exact ⟨c, by rw [hs]; exact List.mem_cons_self c r,
        trimmed_head_not_ws htrim hs⟩

/-- Rows surviving the whole filter/sort effect come from the original
data. -/
theorem mem_computeFiltered {data : List Row} {q : Str} {fs : List ColumnFilter}
    {sc : Option SortConfig} {r : Row} (h : r ∈ computeFiltered data q fs sc) :
    r ∈ data := by
  have h2 : r ∈ applyColumnFilters fs (applyGlobalSearch q data) := by
    rcases sc with _ | c
    · exact h
    · exact (List.mem_insertionSort _).mp
        (show r ∈ (applyColumnFilters fs (applyGlobalSearch q data)).insertionSort
          (fun a b => sortLe c a b = true) from h)
  have h3 := (mem_applyColumnFilters h2).1
  rw [applyGlobalSearch] at h3
  by_cases hq : q.isEmpty
  · rwa [if_pos hq] at h3
  · rw [if_neg hq] at h3
    exact (List.mem_filter.mp h3).1

/-- Reading a row's cells column by column serializes its values in
order. -/
theorem rowLine_eq {columns : List Str} {r : Row} (hk : rowKeys r = columns)
    (hnd : columns.Nodup) :
    columns.map (fun h => serializeValue (rowGet r h)) =
      (rowValues r).map (fun v => serializeValue (some v)) := by
  have hz := zip_keys_values r
  rw [hk] at hz
  have hlen : (rowValues r).length = columns.length := by
    rw [← hk]
    simp [rowKeys, rowValues]
  have hmap := map_rowGet_zip columns (rowValues r) hnd hlen
  rw [hz] at hmap
  exact hmap

/-- Re-parsing the exported data lines of well-formed rows reconstructs the
rows. -/
theorem buildRows_map (columns : List Str) (hnd : columns.Nodup) (hcne : columns ≠ []) :
    ∀ rows : List Row,
      (∀ r ∈ rows, rowKeys r = columns ∧ (∀ p ∈ r, wfExportValue p.2 = true) ∧
        ∃ p ∈ r, p.2 ≠ Value.str []) →
      buildRows columns (rows.map
        (fun r => joinChar ',' (columns.map (fun h => serializeValue (rowGet r h))))) =
        rows := by
  intro rows
  induction rows with
  | nil => intro _; rfl
  | cons r rows' ih =>
    intro hrows
    obtain ⟨hk, hv, p, hp, hpne⟩ := hrows r (List.mem_cons_self _ _)
    have hvwf : ∀ v ∈ rowValues r, wfExportValue v = true := by
      intro v hvmem
      rcases List.mem_map.mp hvmem with ⟨p', hp', rfl⟩
      exact hv p' hp'
    have hlen : (rowValues r).length = columns.length := by
      rw [← hk]
      simp [rowKeys, rowValues]
    have hvne : rowValues r ≠ [] := by
      intro h0
      rw [h0] at hlen
      exact hcne (List.eq_nil_of_length_eq_zero hlen.symm)
    have hline : parseCsvLine (joinChar ','
        (columns.map (fun h => serializeValue (rowGet r h)))) =
        (rowValues r).map stringOfValue := by
      rw [rowLine_eq hk hnd]
      exact scan_fields (rowValues r) hvne hvwf
    have hrow : mkRow columns ((rowValues r).map stringOfValue) = r := by
      rw [mkRow_eq_zip columns (rowValues r) hnd hlen hvwf]
      rw [← hk]
      exact zip_keys_values r
    have hnonempty : rowNonEmpty r = true := by
      rw [rowNonEmpty]
      apply List.any_eq_true.mpr
      exact ⟨p.2, List.mem_map.mpr ⟨p, hp, rfl⟩, by simpa using hpne⟩
    rw [List.map_cons, buildRows, hline, hrow, if_pos hnonempty]
    rw [ih (fun r' hr' => hrows r' (List.mem_cons_of_mem r hr'))]

/-- A successful property read returns a stored value. -/
theorem rowGet_mem {r : Row} {c : Str} {v : Value} (h : rowGet r c = some v) :
    ∃ p ∈ r, p.2 = v := by
  rw [rowGet] at h
  rcases hf : r.find? (fun p => p.1 == c) with _ | p
  · rw [hf] at h
    cases h
  · rw [hf] at h
    injection h with h'
    exact ⟨p, List.mem_of_find?_eq_some hf, h'⟩

/-- Quote stripping and trimming leave a well-formed column name
unchanged. -/
theorem strip_trim_column {c : Str} (h : wfColumn c = true) :
    trimList (stripOuterQuotes c) = c := by
  obtain ⟨htr, _, _, hq, _⟩ := wfColumn_props h
  have hnq : '"' ∉ c := by simpa using hq
  rw [stripOuterQuotes_of_head_ne, htr]
  rcases c with _ | ⟨c1, cr⟩
  · simp
  · have : c1 ≠ '"' := fun h' => hnq (h' ▸ List.mem_cons_self c1 cr)
    simpa using this

/-- The exported text of a well-formed table, line by line. -/
theorem export_lines (columns : List Str) (r0 : Row) (rest : List Row)
    (hk0 : rowKeys r0 = columns) :
    exportCsvData (r0 :: rest) = some (joinChar '\n' (joinChar ',' columns ::
      (r0 :: rest).map (fun row =>
        joinChar ',' (columns.map (fun h => serializeValue (rowGet row h)))))) := by
  have h0 : exportCsvData (r0 :: rest) = some (joinChar '\n'
      (joinChar ',' (rowKeys r0) :: (r0 :: rest).map (fun row =>
        joinChar ',' ((rowKeys r0).map (fun h => serializeValue (rowGet row h)))))) := rfl
  rw [h0, hk0]

/-- C1, amended: for a well-formed table — nonempty data, duplicate-free
trimmed column names free of delimiters, quotes and line breaks, and rows
keyed by the columns whose values are either non-zero numbers or trimmed,
line-break-free, non-numeric, quote-strip-invariant strings, with at least
one non-empty value per row — export produces text whose re-parse
reproduces the column list and every row exactly; every exported value
containing the delimiter, a quote or a line break is wrapped in quotes
with internal quotes doubled; the header line is the joined column names;
and every nonempty filtered/sorted state of a well-formed table is itself
well-formed, so the round trip holds for the row set produced by any
search/filter/sort sequence. -/
theorem export_parse_roundtrip (columns : List Str) (data : List Row)
    (hwf : wfTable columns data = true) :
    (∃ out, exportCsvData data = some out ∧ parseCsvFile out = .ok (data, columns)) ∧
    (∀ v : Option Value,
      ',' ∈ stringOrEmpty v ∨ '"' ∈ stringOrEmpty v ∨ '\n' ∈ stringOrEmpty v →
      serializeValue v = '"' :: (escapeQuotes (stringOrEmpty v) ++ ['"'])) ∧
    (∀ (r : Row) (rest : List Row), exportCsvData (r :: rest) =
      some (joinChar '\n' (joinChar ',' (rowKeys r) :: (r :: rest).map
        (fun row => joinChar ',' ((rowKeys r).map (fun h => serializeValue (rowGet row h))))))) ∧
    (∀ (q : Str) (fs : List ColumnFilter) (sc : Option SortConfig),
      computeFiltered data q fs sc ≠ [] →
      wfTable columns (computeFiltered data q fs sc) = true) := by
  obtain ⟨hne, hnd, hcols, hrows⟩ := (wfTable_iff columns data).mp hwf
  refine ⟨?_, fun v h => serializeValue_quoted h, fun r rest => rfl, ?_⟩
  · obtain ⟨r0, rest, hd⟩ := List.exists_cons_of_ne_nil hne
    obtain ⟨hk0, _, p0, hp0, _⟩ := hrows r0 (by rw [hd]; exact List.mem_cons_self _ _)
    have hcne : columns ≠ [] := by
      intro h0
      rw [h0] at hk0
      rcases r0 with _ | ⟨q0, r0'⟩
      · cases hp0
      · cases hk0
    have hrowsd : ∀ r ∈ data, rowKeys r = columns ∧
        (∀ p ∈ r, wfExportValue p.2 = true) ∧ ∃ p ∈ r, p.2 ≠ Value.str [] := hrows
    rw [hd]
    rw [export_lines columns r0 rest hk0]
    refine ⟨_, rfl, ?_⟩
    have hnonl : ∀ L ∈ joinChar ',' columns :: (r0 :: rest).map (fun row =>
        joinChar ',' (columns.map (fun h => serializeValue (rowGet row h)))), '\n' ∉ L := by
      intro L hL
      rcases List.mem_cons.mp hL with hL | hL
      · subst hL
        intro hmem
        rcases mem_joinChar hmem with h | ⟨c, hc, hmemc⟩
        · cases h
        · have hc5 := (wfColumn_props (hcols c hc)).2.2.2.2
          exact absurd hmemc (by simpa using hc5)
      · rcases List.mem_map.mp hL with ⟨r, hr, rfl⟩
        obtain ⟨hkr, hvr, _⟩ := hrowsd r (by rw [hd]; exact hr)
        intro hmem
        rcases mem_joinChar hmem with h | ⟨f, hf, hmemf⟩
        · cases h
        · rcases List.mem_map.mp hf with ⟨c, hc, rfl⟩
          rcases hget : rowGet r c with _ | v
          · rw [hget] at hmemf
            cases hmemf
          · rw [hget] at hmemf
            obtain ⟨pv, hpv, hpveq⟩ := rowGet_mem hget
            exact newline_not_mem_serialize (hpveq ▸ hvr pv hpv) hmemf
    have hkeep : nonBlankLines (joinChar '\n' (joinChar ',' columns ::
        (r0 :: rest).map (fun row =>
          joinChar ',' (columns.map (fun h => serializeValue (rowGet row h)))))) =
        joinChar ',' columns :: (r0 :: rest).map (fun row =>
          joinChar ',' (columns.map (fun h => serializeValue (rowGet row h)))) := by
      rw [nonBlankLines, splitOnChar_joinChar (by simp) hnonl]
      apply List.filter_eq_self.mpr
      intro L hL
      rcases List.mem_cons.mp hL with hL | hL
      · subst hL
        obtain ⟨c0, cs, hc0⟩ := List.exists_cons_of_ne_nil hcne
        obtain ⟨htr, hcne0, _, _, _⟩ :=
          wfColumn_props (hcols c0 (by rw [hc0]; exact List.mem_cons_self _ _))
        obtain ⟨ch0, chr, hch⟩ := List.exists_cons_of_ne_nil hcne0
        have hws := trimmed_head_not_ws htr hch
        have hmem : ch0 ∈ joinChar ',' columns :=
          mem_joinChar_of_mem (by rw [hc0]; exact List.mem_cons_self _ _)
            (by rw [hch]; exact List.mem_cons_self _ _)
        rw [trimList_isEmpty_false hmem hws]
        rfl
      · rcases List.mem_map.mp hL with ⟨r, hr, rfl⟩
        obtain ⟨hkr, hvr, pr, hpr, hprne⟩ := hrowsd r (by rw [hd]; exact hr)
        have hline2 := rowLine_eq hkr hnd
        obtain ⟨ch, hchmem, hchws⟩ := serialize_has_nonws (hvr pr hpr) hprne
        have hfmem : serializeValue (some pr.2) ∈
            (rowValues r).map (fun v => serializeValue (some v)) :=
          List.mem_map.mpr ⟨pr.2, List.mem_map.mpr ⟨pr, hpr, rfl⟩, rfl⟩
        have hchline : ch ∈ joinChar ','
            (columns.map (fun h => serializeValue (rowGet r h))) := by
          rw [hline2]
          exact mem_joinChar_of_mem hfmem hchmem
        rw [trimList_isEmpty_false hchline hchws]
        rfl
    rw [parseCsvFile, hkeep]
    dsimp only
    have hhdr : (parseCsvLine (joinChar ',' columns)).map
        (fun h => trimList (stripOuterQuotes h)) = columns := by
      rw [scan_header columns hcne (fun c hc =>
        ⟨(wfColumn_props (hcols c hc)).1, (wfColumn_props (hcols c hc)).2.2.1,
         (wfColumn_props (hcols c hc)).2.2.2.1⟩)]
      have hid : ∀ c ∈ columns, trimList (stripOuterQuotes c) = c :=
        fun c hc => strip_trim_column (hcols c hc)
      calc columns.map (fun h => trimList (stripOuterQuotes h))
          = columns.map id := List.map_congr_left hid
        _ = columns := List.map_id columns
    rw [hhdr]
    rw [buildRows_map columns hnd hcne (r0 :: rest) (fun r hr => hrowsd r (by rw [hd]; exact hr))]
  · intro q fs sc hfne
    apply (wfTable_iff columns _).mpr
    exact ⟨hfne, hnd, hcols, fun r hr => hrows r (mem_computeFiltered hr)⟩

/-- C1 counterexample: a row whose only value is the number `0` is lost by
the round trip — `String(row[header] || '')` serializes the falsy `0` as
the empty string, so the exported line is blank and re-parsing discards
the row entirely instead of reproducing it. -/
theorem export_roundtrip_zero_counterexample :
    exportCsvData [[("A".data, Value.num "0".data)]] = some "A\n".data ∧
    parseCsvFile "A\n".data = Except.ok (([] : List Row), ["A".data]) ∧
    ([] : List Row) ≠ [[("A".data, Value.num "0".data)]] :=
  ⟨rfl, rfl, by decide⟩

/-- C1 witness: the concrete Alice/Bob table is well-formed and its export
re-parses to exactly the same rows and columns. -/
theorem export_parse_roundtrip_witness :
    ∃ out, exportCsvData
        [[("Name".data, Value.str "Alice".data), ("Age".data, Value.num "30".data)],
         [("Name".data, Value.str "Bob, Jr".data), ("Age".data, Value.num "25".data)]] =
        some out ∧
      parseCsvFile out = .ok
        ([[("Name".data, Value.str "Alice".data), ("Age".data, Value.num "30".data)],
          [("Name".data, Value.str "Bob, Jr".data), ("Age".data, Value.num "25".data)]],
         ["Name".data, "Age".data]) :=
  (export_parse_roundtrip ["Name".data, "Age".data]
    [[("Name".data, Value.str "Alice".data), ("Age".data, Value.num "30".data)],
     [("Name".data, Value.str "Bob, Jr".data), ("Age".data, Value.num "25".data)]]
    (by decide)).1

/-- C5 witness: at the walker's initial state (only the root path is
registered) the entry `p/q.csv` has unregistered parent path `p` and is
dropped without changing the state. -/
theorem zip_walk_orphan_witness :
    processEntry 0 ⟨[⟨"x".data, 5, []⟩], [([], 0)]⟩ ⟨"p/q.csv".data, false, none⟩ =
      ⟨[⟨"x".data, 5, []⟩], [([], 0)]⟩ :=
  zip_walk_example_and_orphan_skip.2 0 ⟨[⟨"x".data, 5, []⟩], [([], 0)]⟩
    ⟨"p/q.csv".data, false, none⟩ (by decide)
